import Mathlib

/-!
Verification of the bf-rs byte-code interpreter (`src/lib.rs`).

The development shallowly embeds the two core functions of the library:

* `parse` — lexing of source text into `Instructions`, with the optional
  single-pass peephole optimizer (run-length merging and the `[-]`/`[+]`
  to `SetZero` idiom);
* `run` — jump-table construction followed by the dispatch loop over a
  fixed-size tape of unsigned 8-bit cells.

Modelling conventions:

* Rust `usize` values are modelled as `Nat`.  Subtraction underflow of
  `usize` (an arithmetic-overflow program error in Rust, which panics in
  checked builds) is modelled as an explicit failure (`none` / `.err`).
  `%` by zero (`idx %= memory.len()` on an empty tape) likewise panics
  and is modelled as failure.  Slice indexing out of bounds panics and is
  modelled as failure.
* `u8` cells are modelled as `Nat` with explicit `% 256` arithmetic:
  `wrapping_add(x as u8)` becomes `(v + x % 256) % 256` and
  `wrapping_sub(x as u8)` becomes `(v + (256 - x % 256)) % 256`.
* The input stream `io::stdin().bytes()` is modelled as a
  `List (Option Nat)`: `some b` is `Ok(b)`, `none` is `Err(_)`; the empty
  list is the exhausted stream, on which `.next()` returns `None` and the
  source's `.expect("Could not read from stdin")` panics.
* `print!` output is collected in an output list of byte values.
* The `verbose` parameter of `parse` only prints statistics and is
  dropped; `dump_mem`/`dump_inst` are pure formatting and out of scope.
* Execution may not terminate, so the dispatch loop takes explicit fuel;
  running out of fuel is the distinguished result `.timeout`, separate
  from a panic (`.err`).
-/

namespace BF

/-- The instruction set of the interpreter, from `enum Instructions` in
`src/lib.rs`.  Tuple variants hold the repeat count produced by
run-length merging. -/
inductive Instructions where
  /-- Increment pointer by x (`>`) -/
  | IncrementPointer : Nat → Instructions
  /-- Decrement pointer by x (`<`) -/
  | DecrementPointer : Nat → Instructions
  /-- Increment data by x (`+`) -/
  | IncrementValue : Nat → Instructions
  /-- Decrement data by x (`-`) -/
  | DecrementValue : Nat → Instructions
  /-- Loop start (`[`) -/
  | BeginLoop
  /-- Loop end (`]`) -/
  | EndLoop
  /-- Read char from stdin (`,`) -/
  | ReadChar
  /-- Print value as char to stdout (`.`) -/
  | PrintChar
  /-- Optimizer-only instruction: equivalent to `[-]` and `[+]`. -/
  | SetZero
deriving DecidableEq, Repr, Inhabited

open Instructions

/-- The character-to-instruction map of `parse`'s `filter_map` closure:
every character other than the eight commands is a comment. -/
def charMap (ch : Char) : Option Instructions :=
  match ch with
  | '>' => some (IncrementPointer 1)
  | '<' => some (DecrementPointer 1)
  | '+' => some (IncrementValue 1)
  | '-' => some (DecrementValue 1)
  | '[' => some BeginLoop
  | ']' => some EndLoop
  | ',' => some ReadChar
  | '.' => some PrintChar
  | _ => none

/-- `str::trim` on the character sequence: drop whitespace from both
ends.  (Rust trims Unicode `White_Space`; the difference to
`Char.isWhitespace` is irrelevant here because every non-command
character is discarded by the lexer anyway.) -/
def trimChars (cs : List Char) : List Char :=
  ((cs.dropWhile Char.isWhitespace).reverse.dropWhile Char.isWhitespace).reverse

/-- The lexing phase of `parse`:
`program.trim().chars().filter_map(..).collect()`. -/
def lex (program : String) : List Instructions :=
  (trimChars program.toList).filterMap charMap

/-- The optimizer loop of `parse` (the `loop { match (&mut cur_instruction,
remaining) { .. } }` state machine), with its arms in source order:
recognize `[-]`/`[+]` as `SetZero` when no merge is pending, otherwise
start or extend a run of equal mergeable instructions, flushing the
pending instruction when the run breaks. -/
def optimizeLoop (optimized : List Instructions) (cur : Option Instructions)
    (remaining : List Instructions) : List Instructions :=
  match cur, remaining with
  | none, [] => optimized
  | none, BeginLoop :: DecrementValue 1 :: EndLoop :: leftover =>
      optimizeLoop (optimized ++ [SetZero]) none leftover
  | none, BeginLoop :: IncrementValue 1 :: EndLoop :: leftover =>
      optimizeLoop (optimized ++ [SetZero]) none leftover
  | none, x :: leftover => optimizeLoop optimized (some x) leftover
  | some (IncrementPointer cur_val), IncrementPointer x :: leftover =>
      optimizeLoop optimized (some (IncrementPointer (cur_val + x))) leftover
  | some (DecrementPointer cur_val), DecrementPointer x :: leftover =>
      optimizeLoop optimized (some (DecrementPointer (cur_val + x))) leftover
  | some (IncrementValue cur_val), IncrementValue x :: leftover =>
      optimizeLoop optimized (some (IncrementValue (cur_val + x))) leftover
  | some (DecrementValue cur_val), DecrementValue x :: leftover =>
      optimizeLoop optimized (some (DecrementValue (cur_val + x))) leftover
  | some op, rest => optimizeLoop (optimized ++ [op]) none rest
termination_by 2 * remaining.length + (if cur.isSome then 1 else 0)
decreasing_by all_goals simp [Option.isSome] <;> omega

/-- `parse(program, optimize, verbose)` from `src/lib.rs` (without the
`verbose` printing). -/
def parse (program : String) (optimize : Bool) : List Instructions :=
  let instructions := lex program
  if optimize then optimizeLoop [] none instructions else instructions

/-- The mutable data of one execution: the tape (`memory`), the pointer
(`idx`), the unread part of the input stream, and the collected output.
The executed-instruction counter `actions` is kept separately by the
dispatch loop. -/
structure St where
  mem : List Nat
  idx : Nat
  inp : List (Option Nat)
  out : List Nat
deriving DecidableEq, Repr

/-- Result of a full `run`: normal completion with the action counter and
final state, a panic, or fuel exhaustion (the source's `while` loop need
not terminate). -/
inductive RunResult where
  | ok : Nat → St → RunResult
  | err : RunResult
  | timeout : RunResult
deriving DecidableEq, Repr

/-- One arm of the dispatch `match inst[i]` in `run`, given the current
instruction, the jump-table entry `jump[i]`, the cursor `i` and the
state.  Returns the next cursor and state (`i += 1` runs after every arm;
`BeginLoop`/`EndLoop` may first set `i = jump[i]`), or `none` for a
panic:

* `IncrementPointer`: `idx += x; idx %= memory.len()` — `%` by zero
  panics on an empty tape;
* `DecrementPointer`: `memory.len() - (x - idx)` underflows (panics)
  when `x - idx > memory.len()`;
* cell/IO arms index `memory[idx]`, panicking out of bounds;
* `ReadChar` panics when the input stream is exhausted
  (`.next().expect(..)` on `None`) and leaves the cell untouched when
  the stream yields an `Err`. -/
def stepAt (ins : Instructions) (jmp : Nat) (i : Nat) (s : St) :
    Option (Nat × St) :=
  match ins with
  | IncrementPointer x =>
      if s.mem.length = 0 then none
      else some (i + 1, { s with idx := (s.idx + x) % s.mem.length })
  | DecrementPointer x =>
      if x > s.idx then
        if s.mem.length < x - s.idx then none
        else some (i + 1, { s with idx := s.mem.length - (x - s.idx) })
      else some (i + 1, { s with idx := s.idx - x })
  | IncrementValue x =>
      match s.mem[s.idx]? with
      | none => none
      | some v =>
          some (i + 1, { s with mem := s.mem.set s.idx ((v + x % 256) % 256) })
  | DecrementValue x =>
      match s.mem[s.idx]? with
      | none => none
      | some v =>
          some (i + 1,
            { s with mem := s.mem.set s.idx ((v + (256 - x % 256)) % 256) })
  | BeginLoop =>
      match s.mem[s.idx]? with
      | none => none
      | some v => some (if v = 0 then (jmp + 1, s) else (i + 1, s))
  | EndLoop =>
      match s.mem[s.idx]? with
      | none => none
      | some v => some (if v ≠ 0 then (jmp + 1, s) else (i + 1, s))
  | ReadChar =>
      match s.inp with
      | [] => none
      | some ch :: rest =>
          if s.idx < s.mem.length then
            some (i + 1, { s with mem := s.mem.set s.idx ch, inp := rest })
          else none
      | none :: rest => some (i + 1, { s with inp := rest })
  | PrintChar =>
      match s.mem[s.idx]? with
      | none => none
      | some v => some (i + 1, { s with out := s.out ++ [v] })
  | SetZero =>
      if s.idx < s.mem.length then some (i + 1, { s with mem := s.mem.set s.idx 0 })
      else none

/-- The jump-table construction of `run`: one pass over the instructions
with a stack of pending `BeginLoop` positions; popping an empty stack on
`EndLoop` is the `expect("Could not find matching '['")` panic, modelled
as `none`.  Note the source performs no check for positions left on the
stack after the pass. -/
def buildJumpAux (inst : List Instructions) (i : Nat) (stack : List Nat)
    (jump : List Nat) : Option (List Nat) :=
  match inst with
  | [] => some jump
  | BeginLoop :: rest => buildJumpAux rest (i + 1) (i :: stack) jump
  | EndLoop :: rest =>
      match stack with
      | [] => none
      | index :: stack' =>
          buildJumpAux rest (i + 1) stack' ((jump.set i index).set index i)
  | _ :: rest => buildJumpAux rest (i + 1) stack jump

/-- `jump` as computed by the first loop of `run`, starting from
`vec![0; inst.len()]`. -/
def buildJump (inst : List Instructions) : Option (List Nat) :=
  buildJumpAux inst 0 [] (List.replicate inst.length 0)

/-- The dispatch loop `while i < inst.len()` of `run`, with fuel. -/
def runLoop (inst : List Instructions) (jump : List Nat) :
    Nat → Nat → Nat → St → RunResult
  | 0, _, _, _ => .timeout
  | fuel + 1, i, actions, s =>
      match inst[i]? with
      | none => .ok actions s
      | some ins =>
          match stepAt ins (jump.getD i 0) i s with
          | none => .err
          | some (i', s') => runLoop inst jump fuel i' (actions + 1) s'

/-- `run(inst, memory, idx)` from `src/lib.rs`: build the jump table,
then dispatch.  The source returns `(actions, idx)` and mutates `memory`
in place; the model returns the action counter together with the whole
final state. -/
def run (inst : List Instructions) (mem : List Nat) (idx : Nat)
    (inp : List (Option Nat)) (fuel : Nat) : RunResult :=
  match buildJump inst with
  | none => .err
  | some jump => runLoop inst jump fuel 0 0 ⟨mem, idx, inp, []⟩

/-- Operations whose dispatch can neither fail nor jump on a tape of
length `mlen` with an in-range pointer: no loop markers (whose jump
behaviour needs a table), no `ReadChar` (which fails on an exhausted
stream), and backward moves bounded by the tape length (larger counts
can underflow). -/
def safeOp (op : Instructions) (mlen : Nat) : Bool :=
  match op with
  | BeginLoop => false
  | EndLoop => false
  | ReadChar => false
  | DecrementPointer x => decide (x ≤ mlen)
  | _ => true

/-- Syntax tree of a well-bracketed instruction sequence: an `act` node
is a single non-bracket instruction, a `loop` node is a bracketed body.
Used to state and prove the optimization-transparency claim. -/
inductive Node where
  | act : Instructions → Node
  | loop : List Node → Node

mutual
/-- Flatten one tree node back to the bracketed instruction list. -/
def flattenN : Node → List Instructions
  | .act i => [i]
  | .loop b => BeginLoop :: flattenL b ++ [EndLoop]
def flattenL : List Node → List Instructions
  | [] => []
  | n :: r => flattenN n ++ flattenL r
end

mutual
/-- A tree is bracket-free when no `act` node holds a loop marker (the
markers only arise from `loop` nodes). -/
def NoBrN : Node → Prop
  | .act i => i ≠ BeginLoop ∧ i ≠ EndLoop
  | .loop b => NoBrL b
def NoBrL : List Node → Prop
  | [] => True
  | n :: r => NoBrN n ∧ NoBrL r
end

/-- A flat instruction list is well-bracketed when it flattens from a
bracket-free tree. -/
def WellBracketed (l : List Instructions) : Prop :=
  ∃ ts, NoBrL ts ∧ flattenL ts = l

mutual
/-- The optimizer, expressed on trees: `[-]`/`[+]` loops collapse to
`SetZero`, runs of equal mergeable instructions merge (`optLP` carries
the pending merged instruction), loop bodies are optimized recursively.
This mirrors the arms of `optimizeLoop` exactly; the correspondence is
proved below. -/
def optN : Node → Node
  | .act i => .act i
  | .loop b => .loop (optL b)
def optL : List Node → List Node
  | [] => []
  | .loop [.act (DecrementValue 1)] :: r => .act SetZero :: optL r
  | .loop [.act (IncrementValue 1)] :: r => .act SetZero :: optL r
  | .act a :: r => optLP a r
  | .loop b :: r => .loop (optL b) :: optL r
def optLP : Instructions → List Node → List Node
  | IncrementPointer c, .act (IncrementPointer x) :: r => optLP (IncrementPointer (c + x)) r
  | DecrementPointer c, .act (DecrementPointer x) :: r => optLP (DecrementPointer (c + x)) r
  | IncrementValue c, .act (IncrementValue x) :: r => optLP (IncrementValue (c + x)) r
  | DecrementValue c, .act (DecrementValue x) :: r => optLP (DecrementValue (c + x)) r
  | op, r => .act op :: optL r
end

/-- Suffixes at which the optimizer state machine can be re-entered with
no pending instruction and no pattern reaching across the boundary: the
end of the input or a closing bracket. -/
def Barrier (z : List Instructions) : Prop :=
  z = [] ∨ ∃ w, z = EndLoop :: w

/-- All backward-move counts in a list are bounded by `N`. -/
def DPle (l : List Instructions) (N : Nat) : Prop :=
  ∀ x, DecrementPointer x ∈ l → x ≤ N

/-- Big-step evaluation of a tree-shaped program.  Each rule mirrors one
success branch of `stepAt`; a configuration that would panic has no
derivation, and a `loop` node unfolds iteration by iteration, so a
diverging loop has no derivation either. -/
inductive EvalL : List Node → St → St → Prop where
  | nil : ∀ s, EvalL [] s s
  | incPtr : ∀ x r s s₂, s.mem.length ≠ 0 →
      EvalL r { s with idx := (s.idx + x) % s.mem.length } s₂ →
      EvalL (.act (IncrementPointer x) :: r) s s₂
  | decPtrWrap : ∀ x r s s₂, x > s.idx → ¬ s.mem.length < x - s.idx →
      EvalL r { s with idx := s.mem.length - (x - s.idx) } s₂ →
      EvalL (.act (DecrementPointer x) :: r) s s₂
  | decPtrNear : ∀ x r s s₂, ¬ x > s.idx →
      EvalL r { s with idx := s.idx - x } s₂ →
      EvalL (.act (DecrementPointer x) :: r) s s₂
  | incVal : ∀ x r s v s₂, s.mem[s.idx]? = some v →
      EvalL r { s with mem := s.mem.set s.idx ((v + x % 256) % 256) } s₂ →
      EvalL (.act (IncrementValue x) :: r) s s₂
  | decVal : ∀ x r s v s₂, s.mem[s.idx]? = some v →
      EvalL r { s with mem := s.mem.set s.idx ((v + (256 - x % 256)) % 256) } s₂ →
      EvalL (.act (DecrementValue x) :: r) s s₂
  | readOk : ∀ r s ch rest s₂, s.inp = some ch :: rest → s.idx < s.mem.length →
      EvalL r { s with mem := s.mem.set s.idx ch, inp := rest } s₂ →
      EvalL (.act ReadChar :: r) s s₂
  | readErr : ∀ r s rest s₂, s.inp = none :: rest →
      EvalL r { s with inp := rest } s₂ →
      EvalL (.act ReadChar :: r) s s₂
  | print : ∀ r s v s₂, s.mem[s.idx]? = some v →
      EvalL r { s with out := s.out ++ [v] } s₂ →
      EvalL (.act PrintChar :: r) s s₂
  | setZero : ∀ r s s₂, s.idx < s.mem.length →
      EvalL r { s with mem := s.mem.set s.idx 0 } s₂ →
      EvalL (.act SetZero :: r) s s₂
  | loopExit : ∀ b r s s₂, s.mem[s.idx]? = some 0 →
      EvalL r s s₂ → EvalL (.loop b :: r) s s₂
  | loopIter : ∀ b r s v s₁ s₂, s.mem[s.idx]? = some v → v ≠ 0 →
      EvalL b s s₁ → EvalL (.loop b :: r) s₁ s₂ → EvalL (.loop b :: r) s s₂

/-- One dispatched step of the flat machine at a cursor: the
instruction, its jump entry, and a successful `stepAt`. -/
def StepR (inst : List Instructions) (jump : List Nat)
    (p q : Nat × St) : Prop :=
  ∃ ins, inst[p.1]? = some ins ∧
    stepAt ins (jump[p.1]?.getD 0) p.1 p.2 = some q

/-- Exactly `k` dispatched steps of the flat machine. -/
def StepsN (inst : List Instructions) (jump : List Nat) :
    Nat → (Nat × St) → (Nat × St) → Prop
  | 0, p, q => p = q
  | k + 1, p, q => ∃ m, StepR inst jump p m ∧ StepsN inst jump k m q

mutual
/-- The jump-table entries contributed by the bracket pairs of a tree
spanning positions `[i, i + |flatten|)`, applied in the order of the
stack algorithm of `run` (innermost first, each `EndLoop` writing its
own entry and then its partner's). -/
def treeWriteN : Nat → Node → List Nat → List Nat
  | _, .act _, j => j
  | i, .loop b, j =>
      (((treeWriteL (i + 1) b j).set (i + 1 + (flattenL b).length) i).set i
        (i + 1 + (flattenL b).length))
def treeWriteL : Nat → List Node → List Nat → List Nat
  | _, [], j => j
  | i, n :: r, j => treeWriteL (i + (flattenN n).length) r (treeWriteN i n j)
end

mutual
/-- The jump table is correct for a tree spanning positions starting at
`i`: every `loop` node's `BeginLoop` maps to its `EndLoop` and back, and
recursively inside bodies. -/
def SpanOkN (J : List Nat) : Nat → Node → Prop
  | _, .act _ => True
  | i, .loop b =>
      J.getD i 0 = i + 1 + (flattenL b).length ∧
      J.getD (i + 1 + (flattenL b).length) 0 = i ∧ SpanOkL J (i + 1) b
def SpanOkL (J : List Nat) : Nat → List Node → Prop
  | _, [] => True
  | i, n :: r => SpanOkN J i n ∧ SpanOkL J (i + (flattenN n).length) r
end

/-- Statement of the flat-to-tree decomposition at step count `k`: a
`k`-step dispatch chain that starts at the beginning of a bracket-free
region and ends past the program splits into a big-step evaluation of
the region's tree and a remaining chain from the region's end. -/
def Decomp1 (k : Nat) : Prop :=
  ∀ (ts : List Node) (inst : List Instructions) (J : List Nat)
    (pre post : List Instructions) (s sf : St) (m : Nat),
    NoBrL ts → inst = pre ++ flattenL ts ++ post →
    SpanOkL J pre.length ts →
    StepsN inst J k (pre.length, s) (m, sf) → inst[m]? = none →
    ∃ k₁ k₂ s_mid, k = k₁ + k₂ ∧ EvalL ts s s_mid ∧
      StepsN inst J k₂ (pre.length + (flattenL ts).length, s_mid) (m, sf)

/-- Statement of the flat-to-tree decomposition at step count `k` for a
chain entering a loop-headed region at its `EndLoop` position (where the
flat machine re-tests the cell after each iteration). -/
def Decomp2 (k : Nat) : Prop :=
  ∀ (b r : List Node) (inst : List Instructions) (J : List Nat)
    (pre post : List Instructions) (s sf : St) (m : Nat),
    NoBrL (.loop b :: r) →
    inst = pre ++ flattenL (.loop b :: r) ++ post →
    SpanOkL J pre.length (.loop b :: r) →
    StepsN inst J k (pre.length + 1 + (flattenL b).length, s) (m, sf) →
    inst[m]? = none →
    ∃ k₁ k₂ s_mid, k = k₁ + k₂ ∧ EvalL (.loop b :: r) s s_mid ∧
      StepsN inst J k₂
        (pre.length + (flattenL (.loop b :: r)).length, s_mid) (m, sf)

/-- C2: the claim asserts that a `DecrementPointer x` with any count `x`
(including `x` larger than the tape length) resolves to an in-range
index, never to a failure.  At tape length 1, pointer 0, count 2 the
source computes `memory.len() - (x - idx) = 1 - 2`, a `usize`
underflow: the dispatch arm fails instead of wrapping. -/
theorem C2_counterexample :
    stepAt (DecrementPointer 2) 0 0 ⟨[0], 0, [], []⟩ = none ∧
    run [DecrementPointer 2] [0] 0 [] 2 = .err := by decide

/-- C2 (amended): for a nonzero tape length, an in-range pointer, and a
backward count `x` with `x ≤ idx + N` (equivalently, remaining backward
distance at most the tape length), `DecrementPointer x` succeeds and
resolves to the single in-range index `(idx - x) mod N`.  Counts with
`x - idx > N` instead make the `usize` subtraction underflow. -/
theorem C2_amended (s : St) (i jmp x : Nat)
    (hN : 0 < s.mem.length) (hidx : s.idx < s.mem.length)
    (hx : x ≤ s.idx + s.mem.length) :
    ∃ r, stepAt (DecrementPointer x) jmp i s = some (i + 1, { s with idx := r }) ∧
      r < s.mem.length ∧ (r : ℤ) = ((s.idx : ℤ) - x) % (s.mem.length : ℤ) := by
  by_cases h : x > s.idx
  · have hle : ¬ (s.mem.length < x - s.idx) := by omega
    refine ⟨s.mem.length - (x - s.idx), by simp [stepAt, h, hle], by omega, ?_⟩
    have hshift : ((s.idx : ℤ) - x + s.mem.length) % (s.mem.length : ℤ) =
        ((s.idx : ℤ) - x) % (s.mem.length : ℤ) := by
      have := Int.add_mul_emod_self_left (a := (s.idx : ℤ) - x)
        (b := (s.mem.length : ℤ)) (c := 1)
      simpa using this
    rw [← hshift, Int.emod_eq_of_lt (by omega) (by omega)]
    omega
  · refine ⟨s.idx - x, by simp [stepAt, h], by omega, ?_⟩
    rw [Int.emod_eq_of_lt (by omega) (by omega)]
    omega

/-- C2 (witness): tape length 3, pointer 1, backward count 4 (larger
than the tape length) resolves to index 0 = (1 - 4) mod 3. -/
theorem C2_witness :
    ∃ r, stepAt (DecrementPointer 4) 0 0 ⟨[0, 0, 0], 1, [], []⟩ =
        some (1, { St.mk [0, 0, 0] 1 [] [] with idx := r }) ∧
      r < (St.mk [0, 0, 0] 1 [] []).mem.length ∧
      (r : ℤ) = (((St.mk [0, 0, 0] 1 [] []).idx : ℤ) - 4) % ((St.mk [0, 0, 0] 1 [] []).mem.length : ℤ) :=
  C2_amended ⟨[0, 0, 0], 1, [], []⟩ 0 0 4 (by decide) (by decide) (by decide)

/-- C3: the claim (and the spec) say a `BeginLoop` with no matching
`EndLoop` makes jump-table construction fail with a structural error
before any execution.  The source's jump-table loop never inspects the
positions left on the stack after the scan: for the program parsed from
`"["` construction succeeds (table `[0]`) and the dispatch loop runs to
completion, executing one operation, whatever the cell holds. -/
theorem C3_unmatched_open_not_detected :
    parse "[" false = [BeginLoop] ∧
    buildJump [BeginLoop] = some [0] ∧
    run [BeginLoop] [0] 0 [] 2 = .ok 1 ⟨[0], 0, [], []⟩ ∧
    run [BeginLoop] [5] 0 [] 2 = .ok 1 ⟨[5], 0, [], []⟩ := by decide

/-- C4: the claim (and the spec) say `ReadChar` on an exhausted input
stream leaves the cell unchanged and raises no error, and the scenario
`","` on tape `[9]` must end with tape `[9]`.  In the source,
`io::stdin().bytes().next()` returns `None` on an exhausted stream and
the `.expect("Could not read from stdin")` panics; only a stream that
yields an `Err` value leaves the cell unchanged. -/
theorem C4_exhausted_input_panics :
    parse "," false = [ReadChar] ∧
    stepAt ReadChar 0 0 ⟨[9], 0, [], []⟩ = none ∧
    run [ReadChar] [9] 0 [] 2 = .err ∧
    run [ReadChar] [9] 0 [none] 2 = .ok 1 ⟨[9], 0, [], []⟩ := by decide

/-- C6: cell arithmetic is unsigned 8-bit wraparound.  With the current
cell holding `v`, `IncrementValue x` stores `(v + x) mod 256` and
`DecrementValue x` stores `(v - x) mod 256`; the count is reduced
modulo 256 (`x as u8`) before the wrapping add/subtract, so counts
larger than 255 behave correctly. -/
theorem C6_cell_arithmetic_wraps (s : St) (i jmp x v : Nat)
    (hv : s.mem[s.idx]? = some v) :
    stepAt (IncrementValue x) jmp i s =
      some (i + 1, { s with mem := s.mem.set s.idx ((v + x) % 256) }) ∧
    stepAt (DecrementValue x) jmp i s =
      some (i + 1, { s with mem := s.mem.set s.idx (((v : ℤ) - x) % 256).toNat }) := by
  have e1 : (v + x % 256) % 256 = (v + x) % 256 := by omega
  have e2 : (v + (256 - x % 256)) % 256 = (((v : ℤ) - x) % 256).toNat := by omega
  constructor
  · simp only [stepAt, hv, e1]
  · simp only [stepAt, hv, e2]

/-- C6 (witness): a cell at 255 incremented by 1 becomes 0, and with
count 257 the reduction modulo 256 applies first. -/
theorem C6_witness :
    stepAt (IncrementValue 1) 0 0 ⟨[255], 0, [], []⟩ =
      some (1, { St.mk [255] 0 [] [] with mem := [255].set 0 ((255 + 1) % 256) }) ∧
    stepAt (DecrementValue 257) 0 0 ⟨[255], 0, [], []⟩ =
      some (1, { St.mk [255] 0 [] [] with mem := [255].set 0 (((255 : ℤ) - 257) % 256).toNat }) :=
  ⟨(C6_cell_arithmetic_wraps ⟨[255], 0, [], []⟩ 0 0 1 255 (by decide)).1,
   (C6_cell_arithmetic_wraps ⟨[255], 0, [], []⟩ 0 0 257 255 (by decide)).2⟩

/-- C8: circular pointer wraparound.  For tape size `N ≥ 1`: a pointer
at `N - 1` moved forward by 1 lands at 0; a pointer at 0 moved backward
by 1 lands at `N - 1`; a pointer moved forward by `N` lands at its
starting position. -/
theorem C8_wraparound (mem : List Nat) (N p i jmp : Nat)
    (inp : List (Option Nat)) (out : List Nat)
    (hlen : mem.length = N) (hN : 1 ≤ N) (hp : p < N) :
    stepAt (IncrementPointer 1) jmp i ⟨mem, N - 1, inp, out⟩ =
      some (i + 1, ⟨mem, 0, inp, out⟩) ∧
    stepAt (DecrementPointer 1) jmp i ⟨mem, 0, inp, out⟩ =
      some (i + 1, ⟨mem, N - 1, inp, out⟩) ∧
    stepAt (IncrementPointer N) jmp i ⟨mem, p, inp, out⟩ =
      some (i + 1, ⟨mem, p, inp, out⟩) := by
  unfold stepAt
  refine ⟨?_, ?_, ?_⟩
  · simp only [hlen]
    have h1 : ¬ (N = 0) := by omega
    have h2 : (N - 1 + 1) % N = 0 := by rw [Nat.sub_add_cancel hN, Nat.mod_self]
    simp [h1, h2]
  · simp only [hlen]
    have h1 : (1 : Nat) > 0 := by omega
    have h2 : ¬ (N < 1 - 0) := by omega
    simp [h1, h2]
  · simp only [hlen]
    have h1 : ¬ (N = 0) := by omega
    have h2 : (p + N) % N = p := by rw [Nat.add_mod_right, Nat.mod_eq_of_lt hp]
    simp [h1, h2]

/-- C8 (witness): tape size 2, at the three concrete configurations. -/
theorem C8_witness :
    stepAt (IncrementPointer 1) 0 0 ⟨[0, 0], 2 - 1, [], []⟩ = some (1, ⟨[0, 0], 0, [], []⟩) ∧
    stepAt (DecrementPointer 1) 0 0 ⟨[0, 0], 0, [], []⟩ = some (1, ⟨[0, 0], 2 - 1, [], []⟩) ∧
    stepAt (IncrementPointer 2) 0 0 ⟨[0, 0], 1, [], []⟩ = some (1, ⟨[0, 0], 1, [], []⟩) :=
  C8_wraparound [0, 0] 2 1 0 0 [] [] (by decide) (by decide) (by decide)

/-- Auxiliary: reading off the head of `l.drop i`. -/
theorem getElem?_of_drop_eq_cons {α : Type} :
    ∀ (l : List α) (i : Nat) (a : α) (t : List α),
      l.drop i = a :: t → l[i]? = some a ∧ l.drop (i + 1) = t := by
  intro l
  induction l with
  | nil => intro i a t h; simp at h
  | cons x r ih =>
    intro i a t h
    cases i with
    | zero =>
      simp only [List.drop_zero] at h
      cases h
      exact ⟨by simp, by simp⟩
    | succ j =>
      simp only [List.drop_succ_cons] at h
      obtain ⟨h1, h2⟩ := ih j a t h
      exact ⟨by simpa using h1, by simpa using h2⟩

/-- Auxiliary: a single step preserves the tape length and keeps the
pointer in range. -/
theorem stepAt_invariant (ins : Instructions) (jmp i : Nat) (s : St)
    (i' : Nat) (s' : St) (hidx : s.idx < s.mem.length)
    (h : stepAt ins jmp i s = some (i', s')) :
    s'.idx < s'.mem.length ∧ s'.mem.length = s.mem.length := by
  cases ins
  case IncrementPointer x =>
    by_cases hz : s.mem.length = 0
    · simp [stepAt, hz] at h
    · simp only [stepAt, if_neg hz, Option.some.injEq, Prod.mk.injEq] at h
      obtain ⟨h1, h2⟩ := h
      subst h2
      exact ⟨Nat.mod_lt _ (by omega), rfl⟩
  case DecrementPointer x =>
    by_cases hgt : x > s.idx
    · by_cases hlt : s.mem.length < x - s.idx
      · simp [stepAt, hgt, hlt] at h
      · simp only [stepAt, if_pos hgt, if_neg hlt, Option.some.injEq,
          Prod.mk.injEq] at h
        obtain ⟨h1, h2⟩ := h
        subst h2
        exact ⟨by simp <;> omega, rfl⟩
    · simp only [stepAt, if_neg hgt, Option.some.injEq, Prod.mk.injEq] at h
      obtain ⟨h1, h2⟩ := h
      subst h2
      exact ⟨by simp <;> omega, rfl⟩
  case IncrementValue x =>
    cases hv : s.mem[s.idx]? with
    | none => simp [stepAt, hv] at h
    | some v =>
      simp only [stepAt, hv, Option.some.injEq, Prod.mk.injEq] at h
      obtain ⟨h1, h2⟩ := h
      subst h2
      simpa using hidx
  case DecrementValue x =>
    cases hv : s.mem[s.idx]? with
    | none => simp [stepAt, hv] at h
    | some v =>
      simp only [stepAt, hv, Option.some.injEq, Prod.mk.injEq] at h
      obtain ⟨h1, h2⟩ := h
      subst h2
      simpa using hidx
  case BeginLoop =>
    cases hv : s.mem[s.idx]? with
    | none => simp [stepAt, hv] at h
    | some v =>
      simp only [stepAt, hv, Option.some.injEq] at h
      by_cases hv0 : v = 0 <;> simp only [hv0, reduceIte] at h <;>
        rw [Prod.mk.injEq] at h <;> obtain ⟨h1, h2⟩ := h <;> subst h2 <;>
        exact ⟨hidx, rfl⟩
  case EndLoop =>
    cases hv : s.mem[s.idx]? with
    | none => simp [stepAt, hv] at h
    | some v =>
      simp only [stepAt, hv, Option.some.injEq] at h
      by_cases hv0 : v ≠ 0 <;> simp only [hv0, reduceIte, ne_eq,
          not_true_eq_false, not_false_eq_true] at h <;>
        rw [Prod.mk.injEq] at h <;> obtain ⟨h1, h2⟩ := h <;> subst h2 <;>
        exact ⟨hidx, rfl⟩
  case ReadChar =>
    cases hinp : s.inp with
    | nil => simp [stepAt, hinp] at h
    | cons b rest =>
      cases b with
      | some ch =>
        by_cases hlt : s.idx < s.mem.length
        · simp only [stepAt, hinp, if_pos hlt, Option.some.injEq,
            Prod.mk.injEq] at h
          obtain ⟨h1, h2⟩ := h
          subst h2
          simpa using hidx
        · simp [stepAt, hinp, hlt] at h
      | none =>
        simp only [stepAt, hinp, Option.some.injEq, Prod.mk.injEq] at h
        obtain ⟨h1, h2⟩ := h
        subst h2
        exact ⟨hidx, rfl⟩
  case PrintChar =>
    cases hv : s.mem[s.idx]? with
    | none => simp [stepAt, hv] at h
    | some v =>
      simp only [stepAt, hv, Option.some.injEq, Prod.mk.injEq] at h
      obtain ⟨h1, h2⟩ := h
      subst h2
      exact ⟨hidx, rfl⟩
  case SetZero =>
    by_cases hlt : s.idx < s.mem.length
    · simp only [stepAt, if_pos hlt, Option.some.injEq, Prod.mk.injEq] at h
      obtain ⟨h1, h2⟩ := h
      subst h2
      simpa using hidx
    · simp [stepAt, hlt] at h

/-- Auxiliary: the dispatch loop keeps the pointer in range whenever it
completes normally. -/
theorem runLoop_ok_range (inst : List Instructions) (jump : List Nat) :
    ∀ (fuel i acts : Nat) (s : St) (acts' : Nat) (s' : St),
      s.idx < s.mem.length → runLoop inst jump fuel i acts s = .ok acts' s' →
      s'.idx < s'.mem.length := by
  intro fuel
  induction fuel with
  | zero => intro i acts s acts' s' _ h; simp [runLoop] at h
  | succ f ih =>
    intro i acts s acts' s' hidx h
    rw [runLoop] at h
    cases hins : inst[i]? with
    | none =>
      simp only [hins, RunResult.ok.injEq] at h
      obtain ⟨h1, h2⟩ := h
      subst h2
      exact hidx
    | some ins =>
      simp only [hins, List.getD_eq_getElem?_getD] at h
      cases hstep : stepAt ins (jump[i]?.getD 0) i s with
      | none => simp [hstep] at h
      | some p =>
        obtain ⟨i'', s''⟩ := p
        simp only [hstep] at h
        exact ih i'' (acts + 1) s'' acts' s'
          (stepAt_invariant ins (jump[i]?.getD 0) i s i'' s'' hidx hstep).1 h

/-- C7: on a tape of nonzero length with an in-range pointer, the
pointer index stays in range after every successfully dispatched
operation, and the final pointer of a normally completed `run` is in
range. -/
theorem C7_pointer_stays_in_range :
    (∀ (ins : Instructions) (jmp i : Nat) (s : St) (i' : Nat) (s' : St),
      s.idx < s.mem.length → stepAt ins jmp i s = some (i', s') →
      s'.idx < s'.mem.length) ∧
    (∀ (inst : List Instructions) (mem : List Nat) (idx : Nat)
      (inp : List (Option Nat)) (fuel acts : Nat) (s' : St),
      idx < mem.length → run inst mem idx inp fuel = .ok acts s' →
      s'.idx < s'.mem.length) := by
  constructor
  · intro ins jmp i s i' s' hidx h
    exact (stepAt_invariant ins jmp i s i' s' hidx h).1
  · intro inst mem idx inp fuel acts s' hidx h
    unfold run at h
    cases hj : buildJump inst with
    | none => rw [hj] at h; simp at h
    | some jump =>
      rw [hj] at h
      exact runLoop_ok_range inst jump fuel 0 0 ⟨mem, idx, inp, []⟩ acts s' hidx h

/-- C7 (witness): a `SetZero` step at pointer 0 of tape `[5]`, and a
full run of `[SetZero]`, leave the pointer in range. -/
theorem C7_witness :
    (St.mk ([5].set 0 0) 0 [] []).idx < (St.mk ([5].set 0 0) 0 [] []).mem.length ∧
    (St.mk [0] 0 [] []).idx < (St.mk [0] 0 [] []).mem.length :=
  ⟨C7_pointer_stays_in_range.1 SetZero 0 0 ⟨[5], 0, [], []⟩ 1
      ⟨[5].set 0 0, 0, [], []⟩ (by decide) (by decide),
   C7_pointer_stays_in_range.2 [SetZero] [5] 0 [] 2 1 ⟨[0], 0, [], []⟩
      (by decide) (by decide)⟩

/-- C10: frame effect of a single dispatched operation.  Every
successful step changes at most the tape cell at the current pointer:
all other cells are unchanged, and pointer moves as well as loop jumps
(taken or not) leave the whole tape untouched. -/
theorem C10_frame_effect (ins : Instructions) (jmp i : Nat) (s : St)
    (i' : Nat) (s' : St) (h : stepAt ins jmp i s = some (i', s')) :
    (∀ j, j ≠ s.idx → s'.mem[j]? = s.mem[j]?) ∧
    (∀ x, ins = IncrementPointer x ∨ ins = DecrementPointer x → s'.mem = s.mem) ∧
    ((ins = BeginLoop ∨ ins = EndLoop) → s'.mem = s.mem) := by
  cases ins
  case IncrementPointer x =>
    by_cases hz : s.mem.length = 0
    · simp [stepAt, hz] at h
    · simp only [stepAt, if_neg hz, Option.some.injEq, Prod.mk.injEq] at h
      obtain ⟨h1, h2⟩ := h
      subst h2
      simp
  case DecrementPointer x =>
    by_cases hgt : x > s.idx
    · by_cases hlt : s.mem.length < x - s.idx
      · simp [stepAt, hgt, hlt] at h
      · simp only [stepAt, if_pos hgt, if_neg hlt, Option.some.injEq,
          Prod.mk.injEq] at h
        obtain ⟨h1, h2⟩ := h
        subst h2
        simp
    · simp only [stepAt, if_neg hgt, Option.some.injEq, Prod.mk.injEq] at h
      obtain ⟨h1, h2⟩ := h
      subst h2
      simp
  case IncrementValue x =>
    cases hv : s.mem[s.idx]? with
    | none => simp [stepAt, hv] at h
    | some v =>
      simp only [stepAt, hv, Option.some.injEq, Prod.mk.injEq] at h
      obtain ⟨h1, h2⟩ := h
      subst h2
      refine ⟨fun j hj => ?_, by simp, by simp⟩
      simp [List.getElem?_set_ne (Ne.symm hj)]
  case DecrementValue x =>
    cases hv : s.mem[s.idx]? with
    | none => simp [stepAt, hv] at h
    | some v =>
      simp only [stepAt, hv, Option.some.injEq, Prod.mk.injEq] at h
      obtain ⟨h1, h2⟩ := h
      subst h2
      refine ⟨fun j hj => ?_, by simp, by simp⟩
      simp [List.getElem?_set_ne (Ne.symm hj)]
  case BeginLoop =>
    cases hv : s.mem[s.idx]? with
    | none => simp [stepAt, hv] at h
    | some v =>
      simp only [stepAt, hv, Option.some.injEq] at h
      by_cases hv0 : v = 0 <;> simp only [hv0, if_pos, if_neg, reduceIte] at h <;>
        rw [Prod.mk.injEq] at h <;> obtain ⟨h1, h2⟩ := h <;> subst h2 <;> simp
  case EndLoop =>
    cases hv : s.mem[s.idx]? with
    | none => simp [stepAt, hv] at h
    | some v =>
      simp only [stepAt, hv, Option.some.injEq] at h
      by_cases hv0 : v ≠ 0 <;> simp only [hv0, reduceIte, ne_eq,
          not_true_eq_false, not_false_eq_true, if_pos, if_neg] at h <;>
        rw [Prod.mk.injEq] at h <;> obtain ⟨h1, h2⟩ := h <;> subst h2 <;> simp
  case ReadChar =>
    cases hinp : s.inp with
    | nil => simp [stepAt, hinp] at h
    | cons b rest =>
      cases b with
      | some ch =>
        by_cases hlt : s.idx < s.mem.length
        · simp only [stepAt, hinp, if_pos hlt, Option.some.injEq,
            Prod.mk.injEq] at h
          obtain ⟨h1, h2⟩ := h
          subst h2
          refine ⟨fun j hj => ?_, by simp, by simp⟩
          simp [List.getElem?_set_ne (Ne.symm hj)]
        · simp [stepAt, hinp, hlt] at h
      | none =>
        simp only [stepAt, hinp, Option.some.injEq, Prod.mk.injEq] at h
        obtain ⟨h1, h2⟩ := h
        subst h2
        simp
  case PrintChar =>
    cases hv : s.mem[s.idx]? with
    | none => simp [stepAt, hv] at h
    | some v =>
      simp only [stepAt, hv, Option.some.injEq, Prod.mk.injEq] at h
      obtain ⟨h1, h2⟩ := h
      subst h2
      simp
  case SetZero =>
    by_cases hlt : s.idx < s.mem.length
    · simp only [stepAt, if_pos hlt, Option.some.injEq, Prod.mk.injEq] at h
      obtain ⟨h1, h2⟩ := h
      subst h2
      refine ⟨fun j hj => ?_, by simp, by simp⟩
      simp [List.getElem?_set_ne (Ne.symm hj)]
    · simp [stepAt, hlt] at h

/-- Auxiliary: a safe operation always dispatches successfully and moves
the cursor one step forward. -/
theorem stepAt_progress (op : Instructions) (jmp i : Nat) (s : St)
    (hop : safeOp op s.mem.length = true) (hidx : s.idx < s.mem.length) :
    ∃ s', stepAt op jmp i s = some (i + 1, s') := by
  have hlen : 0 < s.mem.length := by omega
  cases op
  case IncrementPointer x =>
    exact ⟨{ s with idx := (s.idx + x) % s.mem.length },
      by simp [stepAt, show ¬ s.mem.length = 0 by omega]⟩
  case DecrementPointer x =>
    simp only [safeOp, decide_eq_true_eq] at hop
    by_cases hgt : x > s.idx
    · exact ⟨{ s with idx := s.mem.length - (x - s.idx) },
        by simp [stepAt, hgt, show ¬ s.mem.length < x - s.idx by omega]⟩
    · exact ⟨{ s with idx := s.idx - x }, by simp [stepAt, hgt]⟩
  case IncrementValue x =>
    exact ⟨{ s with mem := s.mem.set s.idx ((s.mem.get ⟨s.idx, hidx⟩ + x % 256) % 256) },
      by simp [stepAt, List.getElem?_eq_getElem hidx]⟩
  case DecrementValue x =>
    exact ⟨{ s with mem := (s.mem.set s.idx
        ((s.mem.get ⟨s.idx, hidx⟩ + (256 - x % 256)) % 256)) },
      by simp [stepAt, List.getElem?_eq_getElem hidx]⟩
  case BeginLoop => simp [safeOp] at hop
  case EndLoop => simp [safeOp] at hop
  case ReadChar => simp [safeOp] at hop
  case PrintChar =>
    exact ⟨{ s with out := s.out ++ [s.mem.get ⟨s.idx, hidx⟩] },
      by simp [stepAt, List.getElem?_eq_getElem hidx]⟩
  case SetZero =>
    exact ⟨{ s with mem := s.mem.set s.idx 0 }, by simp [stepAt, hidx]⟩

/-- Auxiliary: with no brackets in the program, the jump-table scan
returns its accumulator unchanged. -/
theorem buildJumpAux_no_brackets :
    ∀ (inst : List Instructions) (i : Nat) (stack jump : List Nat),
      (∀ op ∈ inst, op ≠ BeginLoop ∧ op ≠ EndLoop) →
      buildJumpAux inst i stack jump = some jump := by
  intro inst
  induction inst with
  | nil => intro i stack jump _; rfl
  | cons op rest ih =>
    intro i stack jump h
    have hop := h op (by simp)
    have hrest : ∀ o ∈ rest, o ≠ BeginLoop ∧ o ≠ EndLoop :=
      fun o ho => h o (by simp [ho])
    cases op
    case BeginLoop => exact absurd rfl hop.1
    case EndLoop => exact absurd rfl hop.2
    all_goals exact ih (i + 1) stack jump hrest

/-- Auxiliary: the dispatch loop on a suffix of safe operations
completes, executing exactly one action per operation. -/
theorem runLoop_safe_completes (inst : List Instructions) (jump : List Nat)
    (mlen : Nat) (hops : ∀ op ∈ inst, safeOp op mlen = true) :
    ∀ (sub : List Instructions) (i acts : Nat) (s : St),
      inst.drop i = sub → s.mem.length = mlen → s.idx < mlen →
      ∃ s', runLoop inst jump (sub.length + 1) i acts s =
        .ok (acts + sub.length) s' := by
  intro sub
  induction sub with
  | nil =>
    intro i acts s hdrop hsl hsi
    have hnone : inst[i]? = none :=
      List.getElem?_eq_none (List.drop_eq_nil_iff.mp hdrop)
    exact ⟨s, by rw [runLoop]; simp [hnone]⟩
  | cons op sub' ih =>
    intro i acts s hdrop hsl hsi
    obtain ⟨hins, hdrop'⟩ := getElem?_of_drop_eq_cons inst i op sub' hdrop
    have hmem : op ∈ inst := List.getElem?_mem hins
    obtain ⟨s'', hstep⟩ := stepAt_progress op (jump[i]?.getD 0) i s
      (by rw [hsl]; exact hops op hmem) (by omega)
    have hinv := stepAt_invariant op (jump[i]?.getD 0) i s (i + 1) s''
      (by omega) hstep
    obtain ⟨sfin, hrun⟩ := ih (i + 1) (acts + 1) s'' hdrop'
      (by omega) (by omega)
    refine ⟨sfin, ?_⟩
    simp only [List.length_cons]
    rw [runLoop]
    simp only [hins, List.getD_eq_getElem?_getD, hstep]
    rw [show acts + (sub'.length + 1) = acts + 1 + sub'.length by omega]
    exact hrun

/-- C5: the claim says `run` always completes, failing only on a
zero-length tape.  But the jump-table scan panics on an unmatched `]`
even with a nonzero tape: on the program `[EndLoop]` with tape `[0]`
(length 1) `run` fails. -/
theorem C5_counterexample :
    run [EndLoop] [0] 0 [] 2 = .err ∧ 0 < [(0 : Nat)].length := by decide

/-- C5 (amended): `run` is not total: it panics on an unmatched `]`
during jump-table construction, on `ReadChar` with an exhausted input
stream, on a backward pointer move whose `usize` subtraction underflows,
and on any cell access with an empty tape; loops can also make it run
forever.  For a program of safe operations (no loop markers, no
`ReadChar`, backward counts at most the tape length), `run` on a
nonzero tape with an in-range start pointer always completes, executing
each operation exactly once. -/
theorem C5_amended (inst : List Instructions) (mem : List Nat) (idx : Nat)
    (inp : List (Option Nat))
    (hops : ∀ op ∈ inst, safeOp op mem.length = true)
    (hlen : 0 < mem.length) (hidx : idx < mem.length) :
    ∃ s', run inst mem idx inp (inst.length + 1) = .ok inst.length s' := by
  have hnb : ∀ op ∈ inst, op ≠ BeginLoop ∧ op ≠ EndLoop := by
    intro op h
    have := hops op h
    cases op <;> simp [safeOp] at this <;> simp
  have hbj : buildJump inst = some (List.replicate inst.length 0) :=
    buildJumpAux_no_brackets inst 0 [] (List.replicate inst.length 0) hnb
  unfold run
  rw [hbj]
  obtain ⟨s', hrun⟩ := runLoop_safe_completes inst
    (List.replicate inst.length 0) mem.length hops inst 0 0
    ⟨mem, idx, inp, []⟩ (List.drop_zero inst) rfl hidx
  exact ⟨s', by simpa using hrun⟩

/-- C5 (witness): a five-operation safe program on tape `[7, 8]`
completes with exactly five executed operations. -/
theorem C5_witness :
    ∃ s', run [IncrementPointer 3, DecrementPointer 2, IncrementValue 300,
        PrintChar, SetZero] [7, 8] 0 []
        ([IncrementPointer 3, DecrementPointer 2, IncrementValue 300,
          PrintChar, SetZero].length + 1) =
      .ok [IncrementPointer 3, DecrementPointer 2, IncrementValue 300,
        PrintChar, SetZero].length s' :=
  C5_amended [IncrementPointer 3, DecrementPointer 2, IncrementValue 300,
    PrintChar, SetZero] [7, 8] 0 [] (by decide) (by decide) (by decide)

/-- C9: the scenario `++++[-]` with optimization: the four unit
increments merge into `IncrementValue 4` and the trailing `[-]`
collapses to `SetZero`, and running the optimized program on any
one-cell tape ends with tape `[0]` after 2 executed operations. -/
theorem C9_idiom_scenario :
    parse "++++[-]" true = [IncrementValue 4, SetZero] ∧
    ∀ c : Nat, run (parse "++++[-]" true) [c] 0 [] 3 = .ok 2 ⟨[0], 0, [], []⟩ := by
  have hlex : lex "++++[-]" = [IncrementValue 1, IncrementValue 1,
      IncrementValue 1, IncrementValue 1, BeginLoop, DecrementValue 1,
      EndLoop] := by decide
  have hp : parse "++++[-]" true = [IncrementValue 4, SetZero] := by
    simp [parse, hlex, optimizeLoop]
  refine ⟨hp, fun c => ?_⟩
  rw [hp]
  have hbj : buildJump [IncrementValue 4, SetZero] = some [0, 0] := by decide
  have h1 : stepAt (IncrementValue 4) ([0, 0].getD 0 0) 0 ⟨[c], 0, [], []⟩ =
      some (1, ⟨[(c + 4 % 256) % 256], 0, [], []⟩) := by
    simp [stepAt]
  have h2 : stepAt SetZero ([0, 0].getD 1 0) 1 ⟨[(c + 4 % 256) % 256], 0, [], []⟩ =
      some (2, ⟨[0], 0, [], []⟩) := by
    simp [stepAt]
  unfold run
  rw [hbj]
  show runLoop [IncrementValue 4, SetZero] [0, 0] (2 + 1) 0 0 ⟨[c], 0, [], []⟩ =
    .ok 2 ⟨[0], 0, [], []⟩
  rw [runLoop]
  simp only [List.getElem?_cons_zero]
  rw [h1]
  show runLoop [IncrementValue 4, SetZero] [0, 0] (1 + 1) 1 (0 + 1)
    ⟨[(c + 4 % 256) % 256], 0, [], []⟩ = .ok 2 ⟨[0], 0, [], []⟩
  rw [runLoop]
  simp only [List.getElem?_cons_succ, List.getElem?_cons_zero]
  rw [h2]
  show runLoop [IncrementValue 4, SetZero] [0, 0] (0 + 1) 2 (0 + 1 + 1)
    ⟨[0], 0, [], []⟩ = .ok 2 ⟨[0], 0, [], []⟩
  rw [runLoop]
  simp

/-- C1: the claim asserts optimization transparency for every source
program.  It fails: `"<<"` on a tape of size 1 runs to completion
unoptimized (two single-step backward moves, each wrapping to index 0),
but optimization merges them into `DecrementPointer 2`, whose dispatch
computes `memory.len() - (x - idx) = 1 - 2`, a `usize` underflow. -/
theorem C1_counterexample :
    parse "<<" false = [DecrementPointer 1, DecrementPointer 1] ∧
    parse "<<" true = [DecrementPointer 2] ∧
    run (parse "<<" false) [0] 0 [] 3 = .ok 2 ⟨[0], 0, [], []⟩ ∧
    run (parse "<<" true) [0] 0 [] 3 = .err := by
  have hlex : lex "<<" = [DecrementPointer 1, DecrementPointer 1] := by decide
  have hf : parse "<<" false = [DecrementPointer 1, DecrementPointer 1] := by
    simp [parse, hlex]
  have ht : parse "<<" true = [DecrementPointer 2] := by
    simp [parse, hlex, optimizeLoop]
  refine ⟨hf, ht, ?_, ?_⟩
  · rw [hf]; decide
  · rw [ht]; decide

/-- Auxiliary: evaluation never changes the tape length. -/
theorem evalL_mem_length {ts : List Node} {s s' : St} (h : EvalL ts s s') :
    s'.mem.length = s.mem.length := by
  induction h <;> simp_all

/-- Auxiliary: evaluations of consecutive tree lists compose. -/
theorem evalL_append {A : List Node} {s s₁ : St} (h₁ : EvalL A s s₁) :
    ∀ {B : List Node} {s₂ : St}, EvalL B s₁ s₂ → EvalL (A ++ B) s s₂ := by
  induction h₁ with
  | nil => intro B s₂ h₂; exact h₂
  | incPtr x r s s₂ hc _ ih => intro B t h₂; exact .incPtr x _ s t hc (ih h₂)
  | decPtrWrap x r s s₂ h1 h2 _ ih =>
    intro B t h₂; exact .decPtrWrap x _ s t h1 h2 (ih h₂)
  | decPtrNear x r s s₂ h1 _ ih => intro B t h₂; exact .decPtrNear x _ s t h1 (ih h₂)
  | incVal x r s v s₂ hv _ ih => intro B t h₂; exact .incVal x _ s v t hv (ih h₂)
  | decVal x r s v s₂ hv _ ih => intro B t h₂; exact .decVal x _ s v t hv (ih h₂)
  | readOk r s ch rest s₂ hi hr _ ih =>
    intro B t h₂; exact .readOk _ s ch rest t hi hr (ih h₂)
  | readErr r s rest s₂ hi _ ih => intro B t h₂; exact .readErr _ s rest t hi (ih h₂)
  | print r s v s₂ hv _ ih => intro B t h₂; exact .print _ s v t hv (ih h₂)
  | setZero r s s₂ hr _ ih => intro B t h₂; exact .setZero _ s t hr (ih h₂)
  | loopExit b r s s₂ hv _ ih => intro B t h₂; exact .loopExit b _ s t hv (ih h₂)
  | loopIter b r s v s₁ s₂ hv hnz hb _ _ ihrec =>
    intro B t h₂; exact .loopIter b _ s v s₁ t hv hnz hb (ihrec h₂)

/-- Auxiliary: flattening distributes over tree-list append. -/
theorem flattenL_append (A B : List Node) :
    flattenL (A ++ B) = flattenL A ++ flattenL B := by
  induction A with
  | nil => simp [flattenL]
  | cons n r ih => simp [flattenL, ih]

/-- Auxiliary: `StepsN` composes. -/
theorem stepsN_trans {inst : List Instructions} {J : List Nat} :
    ∀ {k₁ k₂ : Nat} {p q r : Nat × St}, StepsN inst J k₁ p q →
      StepsN inst J k₂ q r → StepsN inst J (k₁ + k₂) p r := by
  intro k₁
  induction k₁ with
  | zero =>
    intro k₂ p q r h₁ h₂
    simp only [StepsN] at h₁
    subst h₁
    simpa using h₂
  | succ k ih =>
    intro k₂ p q r h₁ h₂
    obtain ⟨m, hm, hrest⟩ := h₁
    rw [show k + 1 + k₂ = (k + k₂) + 1 by omega]
    exact ⟨m, hm, ih hrest h₂⟩

/-- Auxiliary: a normally completed dispatch loop yields a step chain
ending at a cursor past the program. -/
theorem runLoop_to_stepsN {inst : List Instructions} {J : List Nat} :
    ∀ {fuel i acts : Nat} {s : St} {acts' : Nat} {s' : St},
      runLoop inst J fuel i acts s = .ok acts' s' →
      ∃ k m, StepsN inst J k (i, s) (m, s') ∧ inst[m]? = none ∧
        acts' = acts + k := by
  intro fuel
  induction fuel with
  | zero => intro i acts s acts' s' h; simp [runLoop] at h
  | succ f ih =>
    intro i acts s acts' s' h
    rw [runLoop] at h
    cases hins : inst[i]? with
    | none =>
      simp only [hins, RunResult.ok.injEq] at h
      obtain ⟨h1, h2⟩ := h
      exact ⟨0, i, by simp [StepsN, h2], hins, by omega⟩
    | some ins =>
      simp only [hins, List.getD_eq_getElem?_getD] at h
      cases hstep : stepAt ins (J[i]?.getD 0) i s with
      | none => simp [hstep] at h
      | some p =>
        obtain ⟨i', s₁⟩ := p
        simp only [hstep] at h
        obtain ⟨k, m, hsteps, hnone, hacts⟩ := ih h
        exact ⟨k + 1, m, ⟨(i', s₁), ⟨ins, hins, hstep⟩, hsteps⟩, hnone, by omega⟩

/-- Auxiliary: a step chain ending past the program can be replayed by
the dispatch loop with enough fuel. -/
theorem stepsN_to_runLoop {inst : List Instructions} {J : List Nat} :
    ∀ {k i : Nat} {s : St} {m : Nat} {s' : St},
      StepsN inst J k (i, s) (m, s') → inst[m]? = none →
      ∀ acts, runLoop inst J (k + 1) i acts s = .ok (acts + k) s' := by
  intro k
  induction k with
  | zero =>
    intro i s m s' hs hnone acts
    simp only [StepsN, Prod.mk.injEq] at hs
    obtain ⟨h1, h2⟩ := hs
    subst h1 h2
    rw [runLoop]
    simp [hnone]
  | succ k ih =>
    intro i s m s' hs hnone acts
    obtain ⟨⟨i₁, s₁⟩, ⟨ins, hins, hstep⟩, hrest⟩ := hs
    rw [runLoop]
    simp only [hins, List.getD_eq_getElem?_getD, hstep]
    rw [show acts + (k + 1) = acts + 1 + k by omega]
    exact ih hrest hnone (acts + 1)

/-- Auxiliary: the jump-table scan of `run`, applied to the flattening
of a bracket-free tree followed by `rest`, matches every bracket pair of
the tree (recorded by `treeWriteL`) and continues on `rest` with the
same stack. -/
theorem buildJumpAux_flatten :
    ∀ ts : List Node, NoBrL ts →
      ∀ (rest : List Instructions) (i : Nat) (stack j : List Nat),
        buildJumpAux (flattenL ts ++ rest) i stack j =
        buildJumpAux rest (i + (flattenL ts).length) stack (treeWriteL i ts j) := by
  apply flattenL.induct
    (fun n => NoBrN n →
      ∀ (rest : List Instructions) (i : Nat) (stack j : List Nat),
        buildJumpAux (flattenN n ++ rest) i stack j =
        buildJumpAux rest (i + (flattenN n).length) stack (treeWriteN i n j))
    (fun ts => NoBrL ts →
      ∀ (rest : List Instructions) (i : Nat) (stack j : List Nat),
        buildJumpAux (flattenL ts ++ rest) i stack j =
        buildJumpAux rest (i + (flattenL ts).length) stack (treeWriteL i ts j))
  · intro a hnb rest i stack j
    simp only [NoBrN] at hnb
    cases a
    case BeginLoop => exact absurd rfl hnb.1
    case EndLoop => exact absurd rfl hnb.2
    all_goals simp [flattenN, treeWriteN, buildJumpAux]
  · intro b ih hnb rest i stack j
    simp only [NoBrN] at hnb
    have hK : (flattenN (Node.loop b)).length = (flattenL b).length + 2 := by
      simp [flattenN]
    rw [show flattenN (Node.loop b) ++ rest =
        BeginLoop :: (flattenL b ++ (EndLoop :: rest)) by simp [flattenN]]
    rw [show buildJumpAux (BeginLoop :: (flattenL b ++ (EndLoop :: rest))) i stack j =
        buildJumpAux (flattenL b ++ (EndLoop :: rest)) (i + 1) (i :: stack) j
      from rfl]
    rw [ih hnb (EndLoop :: rest) (i + 1) (i :: stack) j]
    rw [show buildJumpAux (EndLoop :: rest) (i + 1 + (flattenL b).length)
          (i :: stack) (treeWriteL (i + 1) b j) =
        buildJumpAux rest (i + 1 + (flattenL b).length + 1) stack
          (((treeWriteL (i + 1) b j).set (i + 1 + (flattenL b).length) i).set i
            (i + 1 + (flattenL b).length)) from rfl]
    rw [hK]
    rw [show i + 1 + (flattenL b).length + 1 = i + ((flattenL b).length + 2) by omega]
    rfl
  · intro _ rest i stack j
    simp [flattenL, treeWriteL]
  · intro n r ihn ihr hnb rest i stack j
    obtain ⟨hn, hr⟩ := hnb
    rw [show flattenL (n :: r) ++ rest = flattenN n ++ (flattenL r ++ rest) by
      simp [flattenL]]
    rw [ihn hn (flattenL r ++ rest) i stack j]
    rw [ihr hr rest (i + (flattenN n).length) stack (treeWriteN i n j)]
    rw [show flattenL (n :: r) = flattenN n ++ flattenL r from by simp [flattenL]]
    rw [show treeWriteL i (n :: r) j =
        treeWriteL (i + (flattenN n).length) r (treeWriteN i n j) from rfl]
    rw [List.length_append]
    rw [show i + (flattenN n).length + (flattenL r).length =
        i + ((flattenN n).length + (flattenL r).length) by omega]

/-- Auxiliary: recording bracket pairs never changes the table's length. -/
theorem treeWriteL_length :
    ∀ (ts : List Node) (i : Nat) (j : List Nat),
      (treeWriteL i ts j).length = j.length := by
  apply flattenL.induct
    (fun n => ∀ (i : Nat) (j : List Nat),
      (treeWriteN i n j).length = j.length)
    (fun ts => ∀ (i : Nat) (j : List Nat),
      (treeWriteL i ts j).length = j.length)
  · intro a i j; simp [treeWriteN]
  · intro b ih i j; simp [treeWriteN, ih]
  · intro i j; simp [treeWriteL]
  · intro n r ihn ihr i j; simp [treeWriteL, ihn, ihr]

/-- Auxiliary: recording a tree's bracket pairs only writes inside the
tree's span. -/
theorem treeWriteL_outside :
    ∀ (ts : List Node) (i : Nat) (j : List Nat) (p : Nat),
      (p < i ∨ i + (flattenL ts).length ≤ p) →
      (treeWriteL i ts j)[p]? = j[p]? := by
  apply flattenL.induct
    (fun n => ∀ (i : Nat) (j : List Nat) (p : Nat),
      (p < i ∨ i + (flattenN n).length ≤ p) → (treeWriteN i n j)[p]? = j[p]?)
    (fun ts => ∀ (i : Nat) (j : List Nat) (p : Nat),
      (p < i ∨ i + (flattenL ts).length ≤ p) → (treeWriteL i ts j)[p]? = j[p]?)
  · intro a i j p _; simp [treeWriteN]
  · intro b ih i j p hp
    have hlen : (flattenN (Node.loop b)).length = (flattenL b).length + 2 := by
      simp [flattenN]
    rw [hlen] at hp
    simp only [treeWriteN]
    rw [List.getElem?_set_ne (by omega)]
    rw [List.getElem?_set_ne (by omega)]
    exact ih (i + 1) j p (by omega)
  · intro i j p _; simp [treeWriteL]
  · intro n r ihn ihr i j p hp
    have hlen : (flattenL (n :: r)).length =
        (flattenN n).length + (flattenL r).length := by
      simp [flattenL]
    rw [hlen] at hp
    simp only [treeWriteL]
    rw [ihr (i + (flattenN n).length) (treeWriteN i n j) p (by omega)]
    exact ihn i j p (by omega)

/-- Auxiliary: span correctness only reads the span's entries, so it is
stable under changes outside (or equal inside) the span. -/
theorem spanOkL_congr :
    ∀ (ts : List Node) (i : Nat) (J J' : List Nat),
      (∀ p, i ≤ p → p < i + (flattenL ts).length → J'.getD p 0 = J.getD p 0) →
      SpanOkL J i ts → SpanOkL J' i ts := by
  apply flattenL.induct
    (fun n => ∀ (i : Nat) (J J' : List Nat),
      (∀ p, i ≤ p → p < i + (flattenN n).length → J'.getD p 0 = J.getD p 0) →
      SpanOkN J i n → SpanOkN J' i n)
    (fun ts => ∀ (i : Nat) (J J' : List Nat),
      (∀ p, i ≤ p → p < i + (flattenL ts).length → J'.getD p 0 = J.getD p 0) →
      SpanOkL J i ts → SpanOkL J' i ts)
  · intro a i J J' _ _; simp [SpanOkN]
  · intro b ih i J J' hcong hok
    have hlen : (flattenN (Node.loop b)).length = (flattenL b).length + 2 := by
      simp [flattenN]
    rw [hlen] at hcong
    obtain ⟨h1, h2, h3⟩ := hok
    refine ⟨?_, ?_, ?_⟩
    · rw [hcong i (by omega) (by omega)]; exact h1
    · rw [hcong (i + 1 + (flattenL b).length) (by omega) (by omega)]; exact h2
    · exact ih (i + 1) J J' (fun p hp1 hp2 => hcong p (by omega) (by omega)) h3
  · intro i J J' _ _; simp [SpanOkL]
  · intro n r ihn ihr i J J' hcong hok
    have hlen : (flattenL (n :: r)).length =
        (flattenN n).length + (flattenL r).length := by
      simp [flattenL]
    rw [hlen] at hcong
    obtain ⟨h1, h2⟩ := hok
    refine ⟨ihn i J J' (fun p hp1 hp2 => hcong p (by omega) (by omega)) h1, ?_⟩
    exact ihr (i + (flattenN n).length) J J'
      (fun p hp1 hp2 => hcong p (by omega) (by omega)) h2

/-- Auxiliary: node-level version of `spanOkL_congr`. -/
theorem spanOkN_congr (n : Node) (i : Nat) (J J' : List Nat)
    (hcong : ∀ p, i ≤ p → p < i + (flattenN n).length → J'.getD p 0 = J.getD p 0)
    (hok : SpanOkN J i n) : SpanOkN J' i n := by
  have h1 : SpanOkL J i [n] := ⟨hok, trivial⟩
  have h2 : SpanOkL J' i [n] := by
    refine spanOkL_congr [n] i J J' ?_ h1
    intro p hp1 hp2
    refine hcong p hp1 ?_
    simpa [flattenL] using hp2
  exact h2.1

/-- Auxiliary: the table produced by recording a tree's bracket pairs is
span-correct for that tree, provided the table is long enough. -/
theorem spanOk_treeWriteL :
    ∀ (ts : List Node) (i : Nat) (j : List Nat),
      i + (flattenL ts).length ≤ j.length →
      SpanOkL (treeWriteL i ts j) i ts := by
  apply flattenL.induct
    (fun n => ∀ (i : Nat) (j : List Nat),
      i + (flattenN n).length ≤ j.length → SpanOkN (treeWriteN i n j) i n)
    (fun ts => ∀ (i : Nat) (j : List Nat),
      i + (flattenL ts).length ≤ j.length → SpanOkL (treeWriteL i ts j) i ts)
  · intro a i j _; simp [SpanOkN, treeWriteN]
  · intro b ih i j hlen
    have hK : (flattenN (Node.loop b)).length = (flattenL b).length + 2 := by
      simp [flattenN]
    rw [hK] at hlen
    have hWb : (treeWriteL (i + 1) b j).length = j.length := treeWriteL_length b _ j
    have hset1 : ((treeWriteL (i + 1) b j).set (i + 1 + (flattenL b).length) i).length
        = j.length := by simp [hWb]
    simp only [treeWriteN, SpanOkN]
    refine ⟨?_, ?_, ?_⟩
    · rw [List.getD_eq_getElem?_getD]
      rw [List.getElem?_set_self (by omega)]
      simp
    · rw [List.getD_eq_getElem?_getD]
      rw [List.getElem?_set_ne (by omega)]
      rw [List.getElem?_set_self (by omega)]
      simp
    · refine spanOkL_congr b (i + 1) (treeWriteL (i + 1) b j) _ ?_
        (ih (i + 1) j (by omega))
      intro p hp1 hp2
      rw [List.getD_eq_getElem?_getD, List.getD_eq_getElem?_getD]
      rw [List.getElem?_set_ne (by omega), List.getElem?_set_ne (by omega)]
  · intro i j _; simp [SpanOkL]
  · intro n r ihn ihr i j hlen
    have hL : (flattenL (n :: r)).length =
        (flattenN n).length + (flattenL r).length := by simp [flattenL]
    rw [hL] at hlen
    have hN : (treeWriteN i n j).length = j.length := by
      have := treeWriteL_length [n] i j
      simpa [treeWriteL] using this
    simp only [treeWriteL, SpanOkL]
    constructor
    · refine spanOkN_congr n i (treeWriteN i n j) _ ?_ (ihn i j (by omega))
      intro p hp1 hp2
      rw [List.getD_eq_getElem?_getD, List.getD_eq_getElem?_getD]
      rw [treeWriteL_outside r (i + (flattenN n).length) (treeWriteN i n j) p
        (by left; omega)]
    · exact ihr (i + (flattenN n).length) (treeWriteN i n j) (by omega)

/-- Auxiliary: the optimizer's fourth arm (start a pending instruction)
for a head that is not `BeginLoop`. -/
theorem optimizeLoop_shift (acc : List Instructions) (x : Instructions)
    (rem : List Instructions) (hx : x ≠ BeginLoop) :
    optimizeLoop acc none (x :: rem) = optimizeLoop acc (some x) rem :=
  optimizeLoop.eq_4 acc x rem (fun _ h _ => hx h) (fun _ h _ => hx h)

/-- Auxiliary: the optimizer's fourth arm for a `BeginLoop` head whose
tail does not complete a `[-]`/`[+]` idiom. -/
theorem optimizeLoop_shift_bl (acc rem : List Instructions)
    (h1 : ∀ l, rem ≠ DecrementValue 1 :: EndLoop :: l)
    (h2 : ∀ l, rem ≠ IncrementValue 1 :: EndLoop :: l) :
    optimizeLoop acc none (BeginLoop :: rem) =
    optimizeLoop acc (some BeginLoop) rem :=
  optimizeLoop.eq_4 acc BeginLoop rem (fun l _ hr => h1 l hr) (fun l _ hr => h2 l hr)

/-- Auxiliary: the optimizer's flush arm for a pending instruction that
is never a merge candidate. -/
theorem optimizeLoop_flush_nm (acc rem : List Instructions) (op : Instructions)
    (hop : op = BeginLoop ∨ op = EndLoop ∨ op = ReadChar ∨ op = PrintChar ∨
      op = SetZero) :
    optimizeLoop acc (some op) rem = optimizeLoop (acc ++ [op]) none rem := by
  refine optimizeLoop.eq_9 acc rem op ?_ ?_ ?_ ?_ <;>
    intro c x l h1 h2 <;>
    rcases hop with h | h | h | h | h <;> subst h <;> simp at h1

/-- Auxiliary: the optimizer's flush arm for a pending
`IncrementPointer` followed by anything but an `IncrementPointer`. -/
theorem optimizeLoop_flush_ip (acc rem : List Instructions) (c : Nat)
    (hrem : ∀ x l, rem ≠ IncrementPointer x :: l) :
    optimizeLoop acc (some (IncrementPointer c)) rem =
    optimizeLoop (acc ++ [IncrementPointer c]) none rem := by
  refine optimizeLoop.eq_9 acc rem (IncrementPointer c) ?_ ?_ ?_ ?_ <;>
    intro c' x l h1 h2
  · exact hrem x l h2
  all_goals simp at h1

/-- Auxiliary: flush for a pending `DecrementPointer` with no merge. -/
theorem optimizeLoop_flush_dp (acc rem : List Instructions) (c : Nat)
    (hrem : ∀ x l, rem ≠ DecrementPointer x :: l) :
    optimizeLoop acc (some (DecrementPointer c)) rem =
    optimizeLoop (acc ++ [DecrementPointer c]) none rem := by
  refine optimizeLoop.eq_9 acc rem (DecrementPointer c) ?_ ?_ ?_ ?_ <;>
    intro c' x l h1 h2
  case refine_2 => exact hrem x l h2
  all_goals simp at h1

/-- Auxiliary: flush for a pending `IncrementValue` with no merge. -/
theorem optimizeLoop_flush_iv (acc rem : List Instructions) (c : Nat)
    (hrem : ∀ x l, rem ≠ IncrementValue x :: l) :
    optimizeLoop acc (some (IncrementValue c)) rem =
    optimizeLoop (acc ++ [IncrementValue c]) none rem := by
  refine optimizeLoop.eq_9 acc rem (IncrementValue c) ?_ ?_ ?_ ?_ <;>
    intro c' x l h1 h2
  case refine_3 => exact hrem x l h2
  all_goals simp at h1

/-- Auxiliary: flush for a pending `DecrementValue` with no merge. -/
theorem optimizeLoop_flush_dv (acc rem : List Instructions) (c : Nat)
    (hrem : ∀ x l, rem ≠ DecrementValue x :: l) :
    optimizeLoop acc (some (DecrementValue c)) rem =
    optimizeLoop (acc ++ [DecrementValue c]) none rem := by
  refine optimizeLoop.eq_9 acc rem (DecrementValue c) ?_ ?_ ?_ ?_ <;>
    intro c' x l h1 h2
  case refine_4 => exact hrem x l h2
  all_goals simp at h1

/-- Auxiliary: shape of the head of a flattened tree followed by a
barrier suffix. -/
theorem flat_cons_shape (ts : List Node) (z : List Instructions)
    (a : Instructions) (w : List Instructions) (hz : Barrier z)
    (h : flattenL ts ++ z = a :: w) :
    (∃ r, ts = Node.act a :: r) ∨
    (∃ b r, ts = Node.loop b :: r ∧ a = BeginLoop) ∨
    (ts = [] ∧ a = EndLoop) := by
  cases ts with
  | nil =>
    simp only [flattenL, List.nil_append] at h
    rcases hz with hz | ⟨w', hz⟩
    · subst hz; simp at h
    · subst hz
      right; right
      exact ⟨rfl, by injection h with h1 h2; exact h1.symm⟩
  | cons n r =>
    cases n with
    | act b =>
      rw [show flattenL (Node.act b :: r) = b :: flattenL r from by
        simp [flattenL, flattenN]] at h
      simp only [List.cons_append] at h
      injection h with h1 h2
      subst h1
      exact Or.inl ⟨r, rfl⟩
    | loop b =>
      rw [show flattenL (Node.loop b :: r) =
          BeginLoop :: (flattenL b ++ [EndLoop]) ++ flattenL r from by
        simp [flattenL, flattenN]] at h
      simp only [List.cons_append, List.append_assoc] at h
      injection h with h1 h2
      subst h1
      exact Or.inr (Or.inl ⟨b, r, rfl, rfl⟩)

/-- Auxiliary: the flattening of a bracket-free body other than the
single instruction `u` never produces `u :: EndLoop :: _` right before
its closing bracket. -/
theorem flat_body_not_single (b : List Node) (u : Instructions)
    (hnb : NoBrL b) (hne : b ≠ [Node.act u]) (hu : u ≠ EndLoop)
    (hbl : u ≠ BeginLoop) :
    ∀ (w l : List Instructions),
      flattenL b ++ (EndLoop :: w) = u :: EndLoop :: l → False := by
  intro w l h
  cases b with
  | nil =>
    simp only [flattenL, List.nil_append] at h
    injection h with h1 h2
    exact hu h1.symm
  | cons n b' =>
    cases n with
    | act a =>
      rw [show flattenL (Node.act a :: b') = a :: flattenL b' from by
        simp [flattenL, flattenN]] at h
      simp only [List.cons_append] at h
      injection h with h1 h2
      subst h1
      cases b' with
      | nil => exact hne rfl
      | cons n' b'' =>
        cases n' with
        | act a' =>
          rw [show flattenL (Node.act a' :: b'') = a' :: flattenL b'' from by
            simp [flattenL, flattenN]] at h2
          simp only [List.cons_append] at h2
          injection h2 with h3 h4
          exact hnb.2.1.2 h3
        | loop c =>
          rw [show flattenL (Node.loop c :: b'') =
              BeginLoop :: (flattenL c ++ [EndLoop]) ++ flattenL b'' from by
            simp [flattenL, flattenN]] at h2
          simp only [List.cons_append, List.append_assoc] at h2
          injection h2 with h3 h4
          exact absurd h3 (by simp)
    | loop c =>
      rw [show flattenL (Node.loop c :: b') =
          BeginLoop :: (flattenL c ++ [EndLoop]) ++ flattenL b' from by
        simp [flattenL, flattenN]] at h
      simp only [List.cons_append, List.append_assoc] at h
      injection h with h1 h2
      exact hbl h1.symm

/-- Auxiliary: the tree optimizer introduces no bracket `act` nodes. -/
theorem noBr_optL : ∀ ts : List Node, NoBrL ts → NoBrL (optL ts) := by
  apply optL.induct
    (fun ts => NoBrL ts → NoBrL (optL ts))
    (fun op ts => op ≠ BeginLoop → op ≠ EndLoop → NoBrL ts →
      NoBrL (optLP op ts))
  · intro _
    rw [show optL [] = [] from by rw [optL]]
    trivial
  · intro r ih hnb
    rw [optL]
    exact ⟨by simp [NoBrN], ih hnb.2⟩
  · intro r ih hnb
    rw [optL]
    exact ⟨by simp [NoBrN], ih hnb.2⟩
  · intro a r ih hnb
    rw [optL.eq_4]
    exact ih hnb.1.1 hnb.1.2 hnb.2
  · intro b r hne1 hne2 ihb ihr hnb
    rw [optL.eq_5 b r hne1 hne2]
    exact ⟨ihb hnb.1, ihr hnb.2⟩
  · intro c x r ih _ _ hnb
    rw [optLP]
    exact ih (by simp) (by simp) hnb.2
  · intro c x r ih _ _ hnb
    rw [optLP]
    exact ih (by simp) (by simp) hnb.2
  · intro c x r ih _ _ hnb
    rw [optLP]
    exact ih (by simp) (by simp) hnb.2
  · intro c x r ih _ _ hnb
    rw [optLP]
    exact ih (by simp) (by simp) hnb.2
  · intro op r hc1 hc2 hc3 hc4 ih hop1 hop2 hnb
    rw [optLP.eq_5 op r hc1 hc2 hc3 hc4]
    exact ⟨⟨hop1, hop2⟩, ih hnb⟩

/-- Auxiliary: the source optimizer state machine, run on the
flattening of a bracket-free tree followed by a barrier suffix, emits
exactly the flattening of the tree-level optimizer's output and then
continues on the suffix.  This identifies `parse(_, true)` with the
tree optimizer. -/
theorem optimizeLoop_optL :
    ∀ ts : List Node, NoBrL ts → ∀ (z acc : List Instructions), Barrier z →
      optimizeLoop acc none (flattenL ts ++ z) =
      optimizeLoop (acc ++ flattenL (optL ts)) none z := by
  apply optL.induct
    (fun ts => NoBrL ts → ∀ (z acc : List Instructions), Barrier z →
      optimizeLoop acc none (flattenL ts ++ z) =
      optimizeLoop (acc ++ flattenL (optL ts)) none z)
    (fun op ts => NoBrL ts → ∀ (z acc : List Instructions), Barrier z →
      optimizeLoop acc (some op) (flattenL ts ++ z) =
      optimizeLoop (acc ++ flattenL (optLP op ts)) none z)
  · intro _ z acc _
    rw [show optL [] = [] from by rw [optL]]
    simp [flattenL]
  · intro r ih hnb z acc hz
    rw [show flattenL (Node.loop [Node.act (DecrementValue 1)] :: r) ++ z =
        BeginLoop :: DecrementValue 1 :: EndLoop :: (flattenL r ++ z) from by
      simp [flattenL, flattenN]]
    rw [optimizeLoop.eq_2]
    rw [ih hnb.2 z (acc ++ [SetZero]) hz]
    rw [optL]
    rw [show flattenL (Node.act SetZero :: optL r) =
        SetZero :: flattenL (optL r) from by simp [flattenL, flattenN]]
    simp
  · intro r ih hnb z acc hz
    rw [show flattenL (Node.loop [Node.act (IncrementValue 1)] :: r) ++ z =
        BeginLoop :: IncrementValue 1 :: EndLoop :: (flattenL r ++ z) from by
      simp [flattenL, flattenN]]
    rw [optimizeLoop.eq_3]
    rw [ih hnb.2 z (acc ++ [SetZero]) hz]
    rw [optL]
    rw [show flattenL (Node.act SetZero :: optL r) =
        SetZero :: flattenL (optL r) from by simp [flattenL, flattenN]]
    simp
  · intro a r ih hnb z acc hz
    rw [show flattenL (Node.act a :: r) ++ z = a :: (flattenL r ++ z) from by
      simp [flattenL, flattenN]]
    rw [optimizeLoop_shift acc a _ hnb.1.1]
    rw [ih hnb.2 z acc hz]
    rw [optL.eq_4]
  · intro b r hne1 hne2 ihb ihr hnb z acc hz
    have hnbb : NoBrL b := hnb.1
    rw [show flattenL (Node.loop b :: r) ++ z =
        BeginLoop :: (flattenL b ++ (EndLoop :: (flattenL r ++ z))) from by
      simp [flattenL, flattenN]]
    rw [optimizeLoop_shift_bl acc _
      (fun l h => flat_body_not_single b (DecrementValue 1) hnbb
        (fun he => hne1 he) (by simp) (by simp) _ l h)
      (fun l h => flat_body_not_single b (IncrementValue 1) hnbb
        (fun he => hne2 he) (by simp) (by simp) _ l h)]
    rw [optimizeLoop_flush_nm acc _ BeginLoop (Or.inl rfl)]
    rw [ihb hnbb (EndLoop :: (flattenL r ++ z)) (acc ++ [BeginLoop])
      (Or.inr ⟨_, rfl⟩)]
    rw [optimizeLoop_shift _ EndLoop _ (by simp)]
    rw [optimizeLoop_flush_nm _ _ EndLoop (Or.inr (Or.inl rfl))]
    rw [ihr hnb.2 z _ hz]
    rw [optL.eq_5 b r hne1 hne2]
    rw [show flattenL (Node.loop (optL b) :: optL r) =
        BeginLoop :: (flattenL (optL b) ++ ([EndLoop] ++ flattenL (optL r)))
      from by simp [flattenL, flattenN]]
    simp [List.append_assoc]
  · intro c x r ih hnb z acc hz
    rw [show flattenL (Node.act (IncrementPointer x) :: r) ++ z =
        IncrementPointer x :: (flattenL r ++ z) from by simp [flattenL, flattenN]]
    rw [optimizeLoop.eq_5]
    rw [ih hnb.2 z acc hz]
    rw [show optLP (IncrementPointer c) (Node.act (IncrementPointer x) :: r) =
        optLP (IncrementPointer (c + x)) r from by rw [optLP]]
  · intro c x r ih hnb z acc hz
    rw [show flattenL (Node.act (DecrementPointer x) :: r) ++ z =
        DecrementPointer x :: (flattenL r ++ z) from by simp [flattenL, flattenN]]
    rw [optimizeLoop.eq_6]
    rw [ih hnb.2 z acc hz]
    rw [show optLP (DecrementPointer c) (Node.act (DecrementPointer x) :: r) =
        optLP (DecrementPointer (c + x)) r from by rw [optLP]]
  · intro c x r ih hnb z acc hz
    rw [show flattenL (Node.act (IncrementValue x) :: r) ++ z =
        IncrementValue x :: (flattenL r ++ z) from by simp [flattenL, flattenN]]
    rw [optimizeLoop.eq_7]
    rw [ih hnb.2 z acc hz]
    rw [show optLP (IncrementValue c) (Node.act (IncrementValue x) :: r) =
        optLP (IncrementValue (c + x)) r from by rw [optLP]]
  · intro c x r ih hnb z acc hz
    rw [show flattenL (Node.act (DecrementValue x) :: r) ++ z =
        DecrementValue x :: (flattenL r ++ z) from by simp [flattenL, flattenN]]
    rw [optimizeLoop.eq_8]
    rw [ih hnb.2 z acc hz]
    rw [show optLP (DecrementValue c) (Node.act (DecrementValue x) :: r) =
        optLP (DecrementValue (c + x)) r from by rw [optLP]]
  · intro op r hc1 hc2 hc3 hc4 ih hnb z acc hz
    have k1 : ∀ (c x : Nat) (l : List Instructions), op = IncrementPointer c →
        flattenL r ++ z = IncrementPointer x :: l → False := by
      intro c x l hop hrem
      rcases flat_cons_shape r z _ l hz hrem with ⟨r', hr'⟩ | ⟨b, r', _, ha⟩ |
        ⟨_, ha⟩
      · exact hc1 c x r' hop hr'
      · exact absurd ha (by simp)
      · exact absurd ha (by simp)
    have k2 : ∀ (c x : Nat) (l : List Instructions), op = DecrementPointer c →
        flattenL r ++ z = DecrementPointer x :: l → False := by
      intro c x l hop hrem
      rcases flat_cons_shape r z _ l hz hrem with ⟨r', hr'⟩ | ⟨b, r', _, ha⟩ |
        ⟨_, ha⟩
      · exact hc2 c x r' hop hr'
      · exact absurd ha (by simp)
      · exact absurd ha (by simp)
    have k3 : ∀ (c x : Nat) (l : List Instructions), op = IncrementValue c →
        flattenL r ++ z = IncrementValue x :: l → False := by
      intro c x l hop hrem
      rcases flat_cons_shape r z _ l hz hrem with ⟨r', hr'⟩ | ⟨b, r', _, ha⟩ |
        ⟨_, ha⟩
      · exact hc3 c x r' hop hr'
      · exact absurd ha (by simp)
      · exact absurd ha (by simp)
    have k4 : ∀ (c x : Nat) (l : List Instructions), op = DecrementValue c →
        flattenL r ++ z = DecrementValue x :: l → False := by
      intro c x l hop hrem
      rcases flat_cons_shape r z _ l hz hrem with ⟨r', hr'⟩ | ⟨b, r', _, ha⟩ |
        ⟨_, ha⟩
      · exact hc4 c x r' hop hr'
      · exact absurd ha (by simp)
      · exact absurd ha (by simp)
    rw [optimizeLoop.eq_9 acc _ op k1 k2 k3 k4]
    rw [ih hnb z (acc ++ [op]) hz]
    rw [optLP.eq_5 op r hc1 hc2 hc3 hc4]
    rw [show flattenL (Node.act op :: optL r) = op :: flattenL (optL r) from by
      simp [flattenL, flattenN]]
    simp

/-- Auxiliary: writing back the value already stored is the identity. -/
theorem set_of_getElem? {α : Type} (l : List α) (i : Nat) (a : α)
    (h : l[i]? = some a) : l.set i a = l := by
  apply List.ext_getElem?
  intro n
  by_cases hn : i = n
  · subst hn
    rw [List.getElem?_set_self (by
      rcases List.getElem?_eq_some.mp h with ⟨hlt, _⟩
      exact hlt)]
    exact h.symm
  · rw [List.getElem?_set_ne hn]

/-- Auxiliary: the pending-flush arm of the tree optimizer on an empty
tail. -/
theorem optLP_flush_nil (op : Instructions) :
    optLP op [] = [Node.act op] := by
  rw [optLP.eq_5 op [] (by intro _ _ _ _ h; simp at h) (by intro _ _ _ _ h; simp at h)
    (by intro _ _ _ _ h; simp at h) (by intro _ _ _ _ h; simp at h)]
  rw [show optL [] = [] from by rw [optL]]

/-- Auxiliary: a pending backward move is eventually emitted with a
count at least as large, so the emitted-count bound also bounds every
intermediate pending count. -/
theorem optLP_dp_pending :
    ∀ (op : Instructions) (r : List Node) (c : Nat), op = DecrementPointer c →
      ∃ T, c ≤ T ∧ DecrementPointer T ∈ flattenL (optLP op r) := by
  apply optLP.induct
    (fun _ => True)
    (fun op r => ∀ c, op = DecrementPointer c →
      ∃ T, c ≤ T ∧ DecrementPointer T ∈ flattenL (optLP op r))
  · trivial
  · intro _ _; trivial
  · intro _ _; trivial
  · intro _ _ _; trivial
  · intro _ _ _ _ _ _; trivial
  · intro _ _ _ _ _ heq; simp at heq
  · intro c x r ih c' heq
    injection heq with h1
    subst h1
    rw [show optLP (DecrementPointer c) (Node.act (DecrementPointer x) :: r) =
        optLP (DecrementPointer (c + x)) r from by rw [optLP]]
    obtain ⟨T, hT1, hT2⟩ := ih (c + x) rfl
    exact ⟨T, by omega, hT2⟩
  · intro _ _ _ _ _ heq; simp at heq
  · intro _ _ _ _ _ heq; simp at heq
  · intro op r hc1 hc2 hc3 hc4 _ c heq
    subst heq
    rw [optLP.eq_5 _ r hc1 hc2 hc3 hc4]
    exact ⟨c, le_refl c, by simp [flattenL, flattenN]⟩

/-- Auxiliary: an evaluation of a nonempty tree list splits into the
head node alone and the rest. -/
theorem evalL_cons_split :
    ∀ {n : Node} {r : List Node} {s s₂ : St}, EvalL (n :: r) s s₂ →
      ∃ s₁, EvalL [n] s s₁ ∧ EvalL r s₁ s₂ := by
  intro n r s s₂ h
  generalize hts : n :: r = ts at h
  induction h generalizing n r with
  | nil => simp at hts
  | incPtr x r' s' s₂' hlen hrest _ =>
    injection hts with h1 h2
    subst h1 h2
    exact ⟨_, .incPtr x [] s' _ hlen (.nil _), hrest⟩
  | decPtrWrap x r' s' s₂' hgt hle hrest _ =>
    injection hts with h1 h2
    subst h1 h2
    exact ⟨_, .decPtrWrap x [] s' _ hgt hle (.nil _), hrest⟩
  | decPtrNear x r' s' s₂' hng hrest _ =>
    injection hts with h1 h2
    subst h1 h2
    exact ⟨_, .decPtrNear x [] s' _ hng (.nil _), hrest⟩
  | incVal x r' s' v s₂' hv hrest _ =>
    injection hts with h1 h2
    subst h1 h2
    exact ⟨_, .incVal x [] s' v _ hv (.nil _), hrest⟩
  | decVal x r' s' v s₂' hv hrest _ =>
    injection hts with h1 h2
    subst h1 h2
    exact ⟨_, .decVal x [] s' v _ hv (.nil _), hrest⟩
  | readOk r' s' ch rest s₂' hi hr hrest _ =>
    injection hts with h1 h2
    subst h1 h2
    exact ⟨_, .readOk [] s' ch rest _ hi hr (.nil _), hrest⟩
  | readErr r' s' rest s₂' hi hrest _ =>
    injection hts with h1 h2
    subst h1 h2
    exact ⟨_, .readErr [] s' rest _ hi (.nil _), hrest⟩
  | print r' s' v s₂' hv hrest _ =>
    injection hts with h1 h2
    subst h1 h2
    exact ⟨_, .print [] s' v _ hv (.nil _), hrest⟩
  | setZero r' s' s₂' hr hrest _ =>
    injection hts with h1 h2
    subst h1 h2
    exact ⟨_, .setZero [] s' _ hr (.nil _), hrest⟩
  | loopExit b r' s' s₂' hv hrest _ =>
    injection hts with h1 h2
    subst h1 h2
    exact ⟨_, .loopExit b [] s' _ hv (.nil _), hrest⟩
  | loopIter b r' s' v s₁' s₂' hv hnz hbody _ _ ihrec =>
    injection hts with h1 h2
    subst h1 h2
    obtain ⟨sm, hm1, hm2⟩ := ihrec rfl
    exact ⟨sm, .loopIter b [] s' v s₁' sm hv hnz hbody hm1, hm2⟩

/-- Auxiliary: two consecutive forward pointer moves merge. -/
theorem evalL_merge_ip (c x : Nat) (s s₁ s₂ : St)
    (h1 : EvalL [.act (IncrementPointer c)] s s₁)
    (h2 : EvalL [.act (IncrementPointer x)] s₁ s₂) :
    EvalL [.act (IncrementPointer (c + x))] s s₂ := by
  cases h1 with
  | incPtr _ _ _ _ hlen hrest =>
    cases hrest
    cases h2 with
    | incPtr _ _ _ _ hlen2 hrest2 =>
      cases hrest2
      refine .incPtr (c + x) [] s _ hlen ?_
      have harith : (s.idx + (c + x)) % s.mem.length =
          ((s.idx + c) % s.mem.length + x) % s.mem.length := by
        rw [Nat.mod_add_mod, Nat.add_assoc]
      rw [show ({ s with idx := (s.idx + (c + x)) % s.mem.length } : St) =
          { s with idx := ((s.idx + c) % s.mem.length + x) % s.mem.length }
        from by rw [harith]]
      exact .nil _

/-- Auxiliary: two consecutive backward pointer moves merge, provided
the merged count is at most the tape length. -/
theorem evalL_merge_dp (c x : Nat) (s s₁ s₂ : St)
    (hcx : c + x ≤ s.mem.length)
    (h1 : EvalL [.act (DecrementPointer c)] s s₁)
    (h2 : EvalL [.act (DecrementPointer x)] s₁ s₂) :
    EvalL [.act (DecrementPointer (c + x))] s s₂ := by
  cases h1 with
  | decPtrWrap _ _ _ _ hgt hle hrest =>
    cases hrest
    cases h2 with
    | decPtrWrap _ _ _ _ hgt2 hle2 hrest2 =>
      cases hrest2
      simp only at hgt2 hle2
      omega
    | decPtrNear _ _ _ _ hng2 hrest2 =>
      cases hrest2
      simp only at hng2 ⊢
      refine .decPtrWrap (c + x) [] s _ (by omega) (by omega) ?_
      rw [show ({ s with idx := s.mem.length - (c + x - s.idx) } : St) =
          { s with idx := s.mem.length - (c - s.idx) - x } from by
        rw [show s.mem.length - (c + x - s.idx) =
            s.mem.length - (c - s.idx) - x by omega]]
      exact .nil _
  | decPtrNear _ _ _ _ hng hrest =>
    cases hrest
    cases h2 with
    | decPtrWrap _ _ _ _ hgt2 hle2 hrest2 =>
      cases hrest2
      simp only at hgt2 hle2 ⊢
      refine .decPtrWrap (c + x) [] s _ (by omega) (by omega) ?_
      rw [show ({ s with idx := s.mem.length - (c + x - s.idx) } : St) =
          { s with idx := s.mem.length - (x - (s.idx - c)) } from by
        rw [show s.mem.length - (c + x - s.idx) =
            s.mem.length - (x - (s.idx - c)) by omega]]
      exact .nil _
    | decPtrNear _ _ _ _ hng2 hrest2 =>
      cases hrest2
      simp only at hng2 ⊢
      refine .decPtrNear (c + x) [] s _ (by omega) ?_
      rw [show ({ s with idx := s.idx - (c + x) } : St) =
          { s with idx := s.idx - c - x } from by
        rw [show s.idx - (c + x) = s.idx - c - x by omega]]
      exact .nil _

/-- Auxiliary: two consecutive cell increments merge. -/
theorem evalL_merge_iv (c x : Nat) (s s₁ s₂ : St)
    (h1 : EvalL [.act (IncrementValue c)] s s₁)
    (h2 : EvalL [.act (IncrementValue x)] s₁ s₂) :
    EvalL [.act (IncrementValue (c + x))] s s₂ := by
  cases h2 with
  | incVal _ _ _ v₂ _ hv2 hrest2 =>
    cases hrest2
    cases h1 with
    | incVal _ _ _ v _ hv hrest =>
      cases hrest
      simp only at hv2
      have hlt : s.idx < s.mem.length :=
        (List.getElem?_eq_some.mp hv).1
      rw [List.getElem?_set_self hlt] at hv2
      injection hv2 with hv2
      subst hv2
      refine .incVal (c + x) [] s v _ hv ?_
      have hmem : s.mem.set s.idx ((v + (c + x) % 256) % 256) =
          ((s.mem.set s.idx ((v + c % 256) % 256)).set s.idx
            (((v + c % 256) % 256 + x % 256) % 256)) := by
        rw [List.set_set]
        rw [show ((v + c % 256) % 256 + x % 256) % 256 =
            (v + (c + x) % 256) % 256 by omega]
      rw [show ({ s with mem := s.mem.set s.idx ((v + (c + x) % 256) % 256) } : St) =
          { s with mem := ((s.mem.set s.idx ((v + c % 256) % 256)).set s.idx
            (((v + c % 256) % 256 + x % 256) % 256)) } from by rw [hmem]]
      exact .nil _

/-- Auxiliary: two consecutive cell decrements merge. -/
theorem evalL_merge_dv (c x : Nat) (s s₁ s₂ : St)
    (h1 : EvalL [.act (DecrementValue c)] s s₁)
    (h2 : EvalL [.act (DecrementValue x)] s₁ s₂) :
    EvalL [.act (DecrementValue (c + x))] s s₂ := by
  cases h2 with
  | decVal _ _ _ v₂ _ hv2 hrest2 =>
    cases hrest2
    cases h1 with
    | decVal _ _ _ v _ hv hrest =>
      cases hrest
      simp only at hv2
      have hlt : s.idx < s.mem.length :=
        (List.getElem?_eq_some.mp hv).1
      rw [List.getElem?_set_self hlt] at hv2
      injection hv2 with hv2
      subst hv2
      refine .decVal (c + x) [] s v _ hv ?_
      have hmem : s.mem.set s.idx ((v + (256 - (c + x) % 256)) % 256) =
          ((s.mem.set s.idx ((v + (256 - c % 256)) % 256)).set s.idx
            (((v + (256 - c % 256)) % 256 + (256 - x % 256)) % 256)) := by
        rw [List.set_set]
        rw [show ((v + (256 - c % 256)) % 256 + (256 - x % 256)) % 256 =
            (v + (256 - (c + x) % 256)) % 256 by omega]
      rw [show ({ s with mem := s.mem.set s.idx ((v + (256 - (c + x) % 256)) % 256) } : St) =
          { s with mem := ((s.mem.set s.idx ((v + (256 - c % 256)) % 256)).set s.idx
            (((v + (256 - c % 256)) % 256 + (256 - x % 256)) % 256)) } from by rw [hmem]]
      exact .nil _

/-- Auxiliary: a loop evaluation is preserved when its body and its
continuation are replaced by evaluation-equivalent ones (used to push
the optimizer inside loop bodies).  The replacements need only be valid
at states with the run's tape length. -/
theorem evalL_loop_mono (b c r r' : List Node) (L : Nat)
    (hb : ∀ t u, t.mem.length = L → EvalL b t u → EvalL c t u)
    (hr : ∀ t u, t.mem.length = L → EvalL r t u → EvalL r' t u) :
    ∀ s s₂, s.mem.length = L → EvalL (.loop b :: r) s s₂ →
      EvalL (.loop c :: r') s s₂ := by
  intro s s₂ hs h
  generalize hts : Node.loop b :: r = ts at h
  revert hs
  revert hts
  induction h with
  | nil => intro hts; simp at hts
  | incPtr _ _ _ _ _ _ _ => intro hts; simp at hts
  | decPtrWrap _ _ _ _ _ _ _ _ => intro hts; simp at hts
  | decPtrNear _ _ _ _ _ _ _ => intro hts; simp at hts
  | incVal _ _ _ _ _ _ _ _ => intro hts; simp at hts
  | decVal _ _ _ _ _ _ _ _ => intro hts; simp at hts
  | readOk _ _ _ _ _ _ _ _ _ => intro hts; simp at hts
  | readErr _ _ _ _ _ _ _ => intro hts; simp at hts
  | print _ _ _ _ _ _ _ => intro hts; simp at hts
  | setZero _ _ _ _ _ _ => intro hts; simp at hts
  | loopExit b₀ r₀ s₀ s₂₀ hv hrest _ =>
    intro hts hs
    injection hts with h1 h2
    injection h1 with h1
    subst h1 h2
    exact .loopExit c r' s₀ s₂₀ hv (hr s₀ s₂₀ hs hrest)
  | loopIter b₀ r₀ s₀ v s₁ s₂₀ hv hnz hbody hrec ihbody ihrec =>
    intro hts hs
    injection hts with h1 h2
    injection h1 with h1
    subst h1 h2
    have hs₁ : s₁.mem.length = L := by
      rw [evalL_mem_length hbody]; exact hs
    exact .loopIter c r' s₀ v s₁ s₂₀ hv hnz (hb s₀ s₁ hs hbody)
      (ihrec rfl hs₁)

/-- Auxiliary: a `[-]` loop evaluation zeroes the current cell (whose
address must be in range) and hands the zeroed state to the rest. -/
theorem evalL_loop_dec1 :
    ∀ (r : List Node) (s s₂ : St),
      EvalL (.loop [.act (DecrementValue 1)] :: r) s s₂ →
      s.idx < s.mem.length ∧ EvalL r { s with mem := s.mem.set s.idx 0 } s₂ := by
  intro r s s₂ h
  generalize hts : Node.loop [Node.act (DecrementValue 1)] :: r = ts at h
  revert hts
  induction h with
  | nil => intro hts; simp at hts
  | incPtr _ _ _ _ _ _ _ => intro hts; simp at hts
  | decPtrWrap _ _ _ _ _ _ _ _ => intro hts; simp at hts
  | decPtrNear _ _ _ _ _ _ _ => intro hts; simp at hts
  | incVal _ _ _ _ _ _ _ _ => intro hts; simp at hts
  | decVal _ _ _ _ _ _ _ _ => intro hts; simp at hts
  | readOk _ _ _ _ _ _ _ _ _ => intro hts; simp at hts
  | readErr _ _ _ _ _ _ _ => intro hts; simp at hts
  | print _ _ _ _ _ _ _ => intro hts; simp at hts
  | setZero _ _ _ _ _ _ => intro hts; simp at hts
  | loopExit b₀ r₀ s₀ s₂₀ hv hrest _ =>
    intro hts
    injection hts with h1 h2
    injection h1 with h1
    subst h1 h2
    have hlt : s₀.idx < s₀.mem.length := (List.getElem?_eq_some.mp hv).1
    refine ⟨hlt, ?_⟩
    rw [show ({ s₀ with mem := s₀.mem.set s₀.idx 0 } : St) = s₀ from by
      rw [set_of_getElem? s₀.mem s₀.idx 0 hv]]
    exact hrest
  | loopIter b₀ r₀ s₀ v s₁ s₂₀ hv hnz hbody hrec ihbody ihrec =>
    intro hts
    injection hts with h1 h2
    injection h1 with h1
    subst h1 h2
    cases hbody with
    | decVal _ _ _ v' _ hv' hrest' =>
      cases hrest'
      obtain ⟨hlt₁, hres⟩ := ihrec rfl
      simp only at hlt₁ hres ⊢
      have hlt : s₀.idx < s₀.mem.length := (List.getElem?_eq_some.mp hv).1
      refine ⟨hlt, ?_⟩
      rw [show ({ s₀ with mem := s₀.mem.set s₀.idx 0 } : St) =
          { s₀ with mem := ((s₀.mem.set s₀.idx
            ((v' + (256 - 1 % 256)) % 256)).set s₀.idx 0) } from by
        rw [List.set_set]]
      exact hres

/-- Auxiliary: a `[+]` loop evaluation zeroes the current cell. -/
theorem evalL_loop_inc1 :
    ∀ (r : List Node) (s s₂ : St),
      EvalL (.loop [.act (IncrementValue 1)] :: r) s s₂ →
      s.idx < s.mem.length ∧ EvalL r { s with mem := s.mem.set s.idx 0 } s₂ := by
  intro r s s₂ h
  generalize hts : Node.loop [Node.act (IncrementValue 1)] :: r = ts at h
  revert hts
  induction h with
  | nil => intro hts; simp at hts
  | incPtr _ _ _ _ _ _ _ => intro hts; simp at hts
  | decPtrWrap _ _ _ _ _ _ _ _ => intro hts; simp at hts
  | decPtrNear _ _ _ _ _ _ _ => intro hts; simp at hts
  | incVal _ _ _ _ _ _ _ _ => intro hts; simp at hts
  | decVal _ _ _ _ _ _ _ _ => intro hts; simp at hts
  | readOk _ _ _ _ _ _ _ _ _ => intro hts; simp at hts
  | readErr _ _ _ _ _ _ _ => intro hts; simp at hts
  | print _ _ _ _ _ _ _ => intro hts; simp at hts
  | setZero _ _ _ _ _ _ => intro hts; simp at hts
  | loopExit b₀ r₀ s₀ s₂₀ hv hrest _ =>
    intro hts
    injection hts with h1 h2
    injection h1 with h1
    subst h1 h2
    have hlt : s₀.idx < s₀.mem.length := (List.getElem?_eq_some.mp hv).1
    refine ⟨hlt, ?_⟩
    rw [show ({ s₀ with mem := s₀.mem.set s₀.idx 0 } : St) = s₀ from by
      rw [set_of_getElem? s₀.mem s₀.idx 0 hv]]
    exact hrest
  | loopIter b₀ r₀ s₀ v s₁ s₂₀ hv hnz hbody hrec ihbody ihrec =>
    intro hts
    injection hts with h1 h2
    injection h1 with h1
    subst h1 h2
    cases hbody with
    | incVal _ _ _ v' _ hv' hrest' =>
      cases hrest'
      obtain ⟨hlt₁, hres⟩ := ihrec rfl
      simp only at hlt₁ hres ⊢
      have hlt : s₀.idx < s₀.mem.length := (List.getElem?_eq_some.mp hv).1
      refine ⟨hlt, ?_⟩
      rw [show ({ s₀ with mem := s₀.mem.set s₀.idx 0 } : St) =
          { s₀ with mem := ((s₀.mem.set s₀.idx
            ((v' + 1 % 256) % 256)).set s₀.idx 0) } from by
        rw [List.set_set]]
      exact hres

/-- Auxiliary: a backward-count bound descends past a list head. -/
theorem DPle_cons {a : Instructions} {l : List Instructions} {N : Nat}
    (h : DPle (a :: l) N) : DPle l N :=
  fun x hx => h x (List.mem_cons_of_mem a hx)

/-- Auxiliary: a backward-count bound on a flattened loop node covers
its body and its continuation. -/
theorem DPle_loop_cons {c rs : List Node} {N : Nat}
    (h : DPle (flattenL (.loop c :: rs)) N) :
    DPle (flattenL c) N ∧ DPle (flattenL rs) N := by
  constructor <;> intro x hx <;> apply h x <;>
    simp [flattenL, flattenN, List.mem_append] <;> tauto

/-- Auxiliary: a backward-count bound on a flattened act-cons covers the
tail. -/
theorem DPle_act_tail {a : Instructions} {rs : List Node} {N : Nat}
    (h : DPle (flattenL (.act a :: rs)) N) : DPle (flattenL rs) N := by
  intro x hx
  apply h x
  simp [flattenL, flattenN]
  tauto

/-- Auxiliary (transfer of evaluations through the tree optimizer): an
evaluation of a bracket-free tree is also an evaluation of its optimized
form, provided every merged backward-move count emitted by the optimizer
is at most the tape length.  Merged pointer and cell updates coincide by
modular arithmetic; `[-]`/`[+]` loops behave exactly like `SetZero`. -/
theorem evalL_optL :
    ∀ ts : List Node, ∀ (s s' : St), EvalL ts s s' → NoBrL ts →
      DPle (flattenL (optL ts)) s.mem.length → EvalL (optL ts) s s' := by
  apply optL.induct
    (fun ts => ∀ s s', EvalL ts s s' → NoBrL ts →
      DPle (flattenL (optL ts)) s.mem.length → EvalL (optL ts) s s')
    (fun op ts => ∀ s s₁ s', EvalL [Node.act op] s s₁ →
      EvalL ts s₁ s' → NoBrL ts → DPle (flattenL (optLP op ts)) s.mem.length →
      EvalL (optLP op ts) s s')
  · intro s s' h _ _
    cases h
    rw [show optL [] = [] from by rw [optL]]
    exact .nil s
  · intro r ih s s' h hnb hdp
    rw [optL] at hdp ⊢
    obtain ⟨hlt, hres⟩ := evalL_loop_dec1 r s s' h
    refine .setZero (optL r) s s' hlt (ih _ _ hres hnb.2 ?_)
    have := DPle_cons (l := flattenL (optL r)) (by
      simpa [flattenL, flattenN] using hdp)
    simpa using this
  · intro r ih s s' h hnb hdp
    rw [optL] at hdp ⊢
    obtain ⟨hlt, hres⟩ := evalL_loop_inc1 r s s' h
    refine .setZero (optL r) s s' hlt (ih _ _ hres hnb.2 ?_)
    have := DPle_cons (l := flattenL (optL r)) (by
      simpa [flattenL, flattenN] using hdp)
    simpa using this
  · intro a r ih s s' h hnb hdp
    rw [optL.eq_4] at hdp ⊢
    obtain ⟨s₁, h1, h2⟩ := evalL_cons_split h
    exact ih s s₁ s' h1 h2 hnb.2 hdp
  · intro b r hne1 hne2 ihb ihr s s' h hnb hdp
    rw [optL.eq_5 b r hne1 hne2] at hdp ⊢
    obtain ⟨hdpb, hdpr⟩ := DPle_loop_cons hdp
    refine evalL_loop_mono b (optL b) r (optL r) s.mem.length ?_ ?_ s s' rfl h
    · intro t u ht hd
      exact ihb t u hd hnb.1 (by rw [ht]; exact hdpb)
    · intro t u ht hd
      exact ihr t u hd hnb.2 (by rw [ht]; exact hdpr)
  · intro c x r ih s s₁ s' h1 h2 hnb hdp
    rw [show optLP (IncrementPointer c) (Node.act (IncrementPointer x) :: r) =
        optLP (IncrementPointer (c + x)) r from by rw [optLP]] at hdp ⊢
    obtain ⟨s₁', h2a, h2b⟩ := evalL_cons_split h2
    exact ih s s₁' s' (evalL_merge_ip c x s s₁ s₁' h1 h2a) h2b hnb.2 hdp
  · intro c x r ih s s₁ s' h1 h2 hnb hdp
    rw [show optLP (DecrementPointer c) (Node.act (DecrementPointer x) :: r) =
        optLP (DecrementPointer (c + x)) r from by rw [optLP]] at hdp ⊢
    obtain ⟨s₁', h2a, h2b⟩ := evalL_cons_split h2
    obtain ⟨T, hT1, hT2⟩ := optLP_dp_pending (DecrementPointer (c + x)) r
      (c + x) rfl
    have hcx : c + x ≤ s.mem.length := le_trans hT1 (hdp T hT2)
    exact ih s s₁' s' (evalL_merge_dp c x s s₁ s₁' hcx h1 h2a) h2b hnb.2 hdp
  · intro c x r ih s s₁ s' h1 h2 hnb hdp
    rw [show optLP (IncrementValue c) (Node.act (IncrementValue x) :: r) =
        optLP (IncrementValue (c + x)) r from by rw [optLP]] at hdp ⊢
    obtain ⟨s₁', h2a, h2b⟩ := evalL_cons_split h2
    exact ih s s₁' s' (evalL_merge_iv c x s s₁ s₁' h1 h2a) h2b hnb.2 hdp
  · intro c x r ih s s₁ s' h1 h2 hnb hdp
    rw [show optLP (DecrementValue c) (Node.act (DecrementValue x) :: r) =
        optLP (DecrementValue (c + x)) r from by rw [optLP]] at hdp ⊢
    obtain ⟨s₁', h2a, h2b⟩ := evalL_cons_split h2
    exact ih s s₁' s' (evalL_merge_dv c x s s₁ s₁' h1 h2a) h2b hnb.2 hdp
  · intro op r hc1 hc2 hc3 hc4 ih s s₁ s' h1 h2 hnb hdp
    rw [optLP.eq_5 op r hc1 hc2 hc3 hc4] at hdp ⊢
    have hlen : s₁.mem.length = s.mem.length := evalL_mem_length h1
    refine evalL_append h1 (ih s₁ s' h2 hnb ?_)
    rw [hlen]
    have := DPle_cons (l := flattenL (optL r)) (by
      simpa [flattenL, flattenN] using hdp)
    simpa using this

/-- Auxiliary: prepend one step to a step chain. -/
theorem stepsN_head {inst : List Instructions} {J : List Nat}
    {p m q : Nat × St} {k : Nat} (h1 : StepR inst J p m)
    (h2 : StepsN inst J k m q) : StepsN inst J (k + 1) p q := ⟨m, h1, h2⟩

/-- Auxiliary: looking up a position inside the middle region of a
program. -/
theorem region_lookup {α : Type} (inst pre w post : List α)
    (hreg : inst = pre ++ w ++ post) (j : Nat) (hj : j < w.length) :
    inst[pre.length + j]? = w[j]? := by
  subst hreg
  rw [List.append_assoc]
  rw [List.getElem?_append_right (by omega)]
  rw [show pre.length + j - pre.length = j by omega]
  rw [List.getElem?_append_left hj]

/-- Auxiliary: length of a flattened act-cons. -/
theorem flat_len_act (a : Instructions) (rs : List Node) :
    (flattenL (.act a :: rs)).length = 1 + (flattenL rs).length := by
  simp only [flattenL, flattenN, List.length_append, List.length_cons,
    List.length_nil]

/-- Auxiliary: length of a flattened loop-cons. -/
theorem flat_len_loop (b rs : List Node) :
    (flattenL (.loop b :: rs)).length =
    (flattenL b).length + 2 + (flattenL rs).length := by
  simp only [flattenL, flattenN, List.length_append, List.length_cons,
    List.length_nil]

/-- Auxiliary: head of a flattened act-cons. -/
theorem flat_get_act (a : Instructions) (rs : List Node) :
    (flattenL (.act a :: rs))[0]? = some a := by
  simp [flattenL, flattenN]

/-- Auxiliary: head of a flattened loop-cons. -/
theorem flat_get_bl (b rs : List Node) :
    (flattenL (.loop b :: rs))[0]? = some BeginLoop := by
  simp [flattenL, flattenN]

/-- Auxiliary: the closing bracket of a flattened loop-cons sits right
after the body. -/
theorem flat_get_el (b rs : List Node) :
    (flattenL (.loop b :: rs))[1 + (flattenL b).length]? = some EndLoop := by
  rw [show flattenL (Node.loop b :: rs) =
      (BeginLoop :: (flattenL b ++ [EndLoop])) ++ flattenL rs from by
    simp [flattenL, flattenN]]
  rw [List.getElem?_append_left (by simp; omega)]
  rw [show 1 + (flattenL b).length = (flattenL b).length + 1 by omega]
  rw [List.getElem?_cons_succ]
  rw [List.getElem?_append_right (le_refl _)]
  simp

/-- Auxiliary: a non-bracket instruction step inside a region advances
to the rest of the region (shared skeleton of the act cases of the
tree-to-flat simulation). -/
theorem act_case_steps (a : Instructions) (r : List Node) (s₀ upd s₂ : St)
    (inst : List Instructions) (J : List Nat) (pre post : List Instructions)
    (hreg : inst = pre ++ flattenL (.act a :: r) ++ post)
    (hspan : SpanOkL J pre.length (.act a :: r))
    (hstep : ∀ jmp i, stepAt a jmp i s₀ = some (i + 1, upd))
    (ih : ∀ (inst' : List Instructions) (J' : List Nat)
      (pre' post' : List Instructions),
      inst' = pre' ++ flattenL r ++ post' → SpanOkL J' pre'.length r →
      ∃ k, StepsN inst' J' k (pre'.length, upd)
        (pre'.length + (flattenL r).length, s₂)) :
    ∃ k, StepsN inst J k (pre.length, s₀)
      (pre.length + (flattenL (.act a :: r)).length, s₂) := by
  have hins : inst[pre.length]? = some a := by
    have h0 := region_lookup inst pre (flattenL (.act a :: r)) post hreg 0
      (by rw [flat_len_act]; omega)
    rw [Nat.add_zero] at h0
    rw [h0, flat_get_act]
  have hreg' : inst = (pre ++ [a]) ++ flattenL r ++ post := by
    rw [hreg]; simp [flattenL, flattenN]
  have hspan' : SpanOkL J (pre ++ [a]).length r := by
    have h2 := hspan.2
    rw [show (pre ++ [a]).length = pre.length + (flattenN (Node.act a)).length
      from by simp [flattenN]]
    exact h2
  obtain ⟨k, hk⟩ := ih inst J (pre ++ [a]) post hreg' hspan'
  refine ⟨k + 1, stepsN_head ⟨a, hins, hstep _ _⟩ ?_⟩
  have e1 : (pre ++ [a]).length = pre.length + 1 := by simp
  rw [e1] at hk
  have e2 : pre.length + 1 + (flattenL r).length =
      pre.length + (flattenL (Node.act a :: r)).length := by
    rw [flat_len_act]; omega
  rw [e2] at hk
  exact hk

/-- Auxiliary (tree-to-flat simulation): an evaluation of a tree placed
as a region of a flat program with a span-correct jump table is realized
by a chain of dispatch steps from the region's start to its end; for a
loop-headed tree the chain can also start at the loop's `EndLoop`
position (where the flat machine re-tests the cell). -/
theorem evalL_to_stepsN :
    ∀ {ts : List Node} {s s' : St}, EvalL ts s s' →
    ∀ (inst : List Instructions) (J : List Nat) (pre post : List Instructions),
      inst = pre ++ flattenL ts ++ post → SpanOkL J pre.length ts →
      (∃ k, StepsN inst J k (pre.length, s)
        (pre.length + (flattenL ts).length, s')) ∧
      (∀ b r, ts = .loop b :: r →
        ∃ k, StepsN inst J k (pre.length + 1 + (flattenL b).length, s)
          (pre.length + (flattenL ts).length, s')) := by
  intro ts s s' h
  induction h with
  | nil s₀ =>
    intro inst J pre post hreg hspan
    constructor
    · refine ⟨0, ?_⟩
      rw [show (flattenL ([] : List Node)).length = 0 from by simp [flattenL]]
      rw [Nat.add_zero]
      rfl
    · intro b r heq; simp at heq
  | incPtr x r s₀ s₂ hlen hrest ih =>
    intro inst J pre post hreg hspan
    refine ⟨act_case_steps _ r s₀ _ s₂ inst J pre post hreg hspan
      (fun jmp i => by simp [stepAt, hlen])
      (fun inst' J' pre' post' hr hs => (ih inst' J' pre' post' hr hs).1), ?_⟩
    intro b r' heq; simp at heq
  | decPtrWrap x r s₀ s₂ hgt hle hrest ih =>
    intro inst J pre post hreg hspan
    refine ⟨act_case_steps _ r s₀ _ s₂ inst J pre post hreg hspan
      (fun jmp i => by simp [stepAt, hgt, hle])
      (fun inst' J' pre' post' hr hs => (ih inst' J' pre' post' hr hs).1), ?_⟩
    intro b r' heq; simp at heq
  | decPtrNear x r s₀ s₂ hng hrest ih =>
    intro inst J pre post hreg hspan
    refine ⟨act_case_steps _ r s₀ _ s₂ inst J pre post hreg hspan
      (fun jmp i => by simp [stepAt, hng])
      (fun inst' J' pre' post' hr hs => (ih inst' J' pre' post' hr hs).1), ?_⟩
    intro b r' heq; simp at heq
  | incVal x r s₀ v s₂ hv hrest ih =>
    intro inst J pre post hreg hspan
    refine ⟨act_case_steps _ r s₀ _ s₂ inst J pre post hreg hspan
      (fun jmp i => by simp [stepAt, hv])
      (fun inst' J' pre' post' hr hs => (ih inst' J' pre' post' hr hs).1), ?_⟩
    intro b r' heq; simp at heq
  | decVal x r s₀ v s₂ hv hrest ih =>
    intro inst J pre post hreg hspan
    refine ⟨act_case_steps _ r s₀ _ s₂ inst J pre post hreg hspan
      (fun jmp i => by simp [stepAt, hv])
      (fun inst' J' pre' post' hr hs => (ih inst' J' pre' post' hr hs).1), ?_⟩
    intro b r' heq; simp at heq
  | readOk r s₀ ch rest s₂ hi hr hrest ih =>
    intro inst J pre post hreg hspan
    refine ⟨act_case_steps _ r s₀ _ s₂ inst J pre post hreg hspan
      (fun jmp i => by simp [stepAt, hi, hr])
      (fun inst' J' pre' post' hre hs => (ih inst' J' pre' post' hre hs).1), ?_⟩
    intro b r' heq; simp at heq
  | readErr r s₀ rest s₂ hi hrest ih =>
    intro inst J pre post hreg hspan
    refine ⟨act_case_steps _ r s₀ _ s₂ inst J pre post hreg hspan
      (fun jmp i => by simp [stepAt, hi])
      (fun inst' J' pre' post' hre hs => (ih inst' J' pre' post' hre hs).1), ?_⟩
    intro b r' heq; simp at heq
  | print r s₀ v s₂ hv hrest ih =>
    intro inst J pre post hreg hspan
    refine ⟨act_case_steps _ r s₀ _ s₂ inst J pre post hreg hspan
      (fun jmp i => by simp [stepAt, hv])
      (fun inst' J' pre' post' hre hs => (ih inst' J' pre' post' hre hs).1), ?_⟩
    intro b r' heq; simp at heq
  | setZero r s₀ s₂ hr hrest ih =>
    intro inst J pre post hreg hspan
    refine ⟨act_case_steps _ r s₀ _ s₂ inst J pre post hreg hspan
      (fun jmp i => by simp [stepAt, hr])
      (fun inst' J' pre' post' hre hs => (ih inst' J' pre' post' hre hs).1), ?_⟩
    intro b r' heq; simp at heq
  | loopExit b r s₀ s₂ hv hrest ih =>
    intro inst J pre post hreg hspan
    obtain ⟨hJ1, hJ2, hspanb⟩ := hspan.1
    have hinsBL : inst[pre.length]? = some BeginLoop := by
      have h0 := region_lookup inst pre (flattenL (.loop b :: r)) post hreg 0
        (by rw [flat_len_loop]; omega)
      rw [Nat.add_zero] at h0
      rw [h0, flat_get_bl]
    have hinsEL : inst[pre.length + 1 + (flattenL b).length]? = some EndLoop := by
      have h0 := region_lookup inst pre (flattenL (.loop b :: r)) post hreg
        (1 + (flattenL b).length) (by rw [flat_len_loop]; omega)
      rw [show pre.length + (1 + (flattenL b).length)
          = pre.length + 1 + (flattenL b).length by omega] at h0
      rw [h0, flat_get_el]
    have hregr : inst = (pre ++ flattenN (Node.loop b)) ++ flattenL r ++ post := by
      rw [hreg]; simp [flattenL, flattenN]
    have epre : (pre ++ flattenN (Node.loop b)).length =
        pre.length + ((flattenL b).length + 2) := by
      simp only [List.length_append]
      rw [show (flattenN (Node.loop b)).length = (flattenL b).length + 2 from by
        simp [flattenN]]
    have hspanr' : SpanOkL J (pre ++ flattenN (Node.loop b)).length r := by
      rw [epre]
      have h2 := hspan.2
      rw [show (flattenN (Node.loop b)).length = (flattenL b).length + 2 from by
        simp [flattenN]] at h2
      exact h2
    obtain ⟨kr, hkr⟩ := (ih inst J (pre ++ flattenN (Node.loop b)) post hregr
      hspanr').1
    rw [epre] at hkr
    have eend : pre.length + ((flattenL b).length + 2) + (flattenL r).length =
        pre.length + (flattenL (Node.loop b :: r)).length := by
      rw [flat_len_loop]; omega
    rw [eend] at hkr
    have hJ1' : J[pre.length]?.getD 0 =
        pre.length + 1 + (flattenL b).length := by
      rw [← List.getD_eq_getElem?_getD]; exact hJ1
    constructor
    · have hstepBL : stepAt BeginLoop (J[pre.length]?.getD 0) pre.length s₀ =
          some (pre.length + ((flattenL b).length + 2), s₀) := by
        rw [hJ1', show pre.length + ((flattenL b).length + 2)
            = pre.length + 1 + (flattenL b).length + 1 by omega]
        simp [stepAt, hv]
      exact ⟨kr + 1, stepsN_head ⟨BeginLoop, hinsBL, hstepBL⟩ hkr⟩
    · intro b₀ r₀ heq
      injection heq with h1 h2
      injection h1 with h1
      subst h1 h2
      have hstepEL : stepAt EndLoop
          (J[pre.length + 1 + (flattenL b).length]?.getD 0)
          (pre.length + 1 + (flattenL b).length) s₀ =
          some (pre.length + ((flattenL b).length + 2), s₀) := by
        rw [show pre.length + ((flattenL b).length + 2)
            = pre.length + 1 + (flattenL b).length + 1 by omega]
        simp [stepAt, hv]
      exact ⟨kr + 1, stepsN_head ⟨EndLoop, hinsEL, hstepEL⟩ hkr⟩
  | loopIter b r s₀ v s₁ s₂ hv hnz hbody hrec ihbody ihrec =>
    intro inst J pre post hreg hspan
    obtain ⟨hJ1, hJ2, hspanb⟩ := hspan.1
    have hinsBL : inst[pre.length]? = some BeginLoop := by
      have h0 := region_lookup inst pre (flattenL (.loop b :: r)) post hreg 0
        (by rw [flat_len_loop]; omega)
      rw [Nat.add_zero] at h0
      rw [h0, flat_get_bl]
    have hinsEL : inst[pre.length + 1 + (flattenL b).length]? = some EndLoop := by
      have h0 := region_lookup inst pre (flattenL (.loop b :: r)) post hreg
        (1 + (flattenL b).length) (by rw [flat_len_loop]; omega)
      rw [show pre.length + (1 + (flattenL b).length)
          = pre.length + 1 + (flattenL b).length by omega] at h0
      rw [h0, flat_get_el]
    have hregb : inst = (pre ++ [BeginLoop]) ++ flattenL b ++
        (EndLoop :: (flattenL r ++ post)) := by
      rw [hreg]; simp [flattenL, flattenN]
    have hspanb' : SpanOkL J (pre ++ [BeginLoop]).length b := by
      rw [show (pre ++ [BeginLoop]).length = pre.length + 1 from by simp]
      exact hspanb
    obtain ⟨kb, hkb⟩ := (ihbody inst J (pre ++ [BeginLoop])
      (EndLoop :: (flattenL r ++ post)) hregb hspanb').1
    rw [show (pre ++ [BeginLoop]).length = pre.length + 1 from by simp] at hkb
    obtain ⟨ke, hke⟩ := (ihrec inst J pre post hreg hspan).2 b r rfl
    have hJ2' : J[pre.length + 1 + (flattenL b).length]?.getD 0 = pre.length := by
      rw [← List.getD_eq_getElem?_getD]; exact hJ2
    constructor
    · have hstepBL : stepAt BeginLoop (J[pre.length]?.getD 0) pre.length s₀ =
          some (pre.length + 1, s₀) := by
        simp [stepAt, hv, hnz]
      refine ⟨kb + ke + 1, stepsN_head ⟨BeginLoop, hinsBL, hstepBL⟩ ?_⟩
      exact stepsN_trans hkb hke
    · intro b₀ r₀ heq
      injection heq with h1 h2
      injection h1 with h1
      subst h1 h2
      have hstepEL : stepAt EndLoop
          (J[pre.length + 1 + (flattenL b).length]?.getD 0)
          (pre.length + 1 + (flattenL b).length) s₀ =
          some (pre.length + 1, s₀) := by
        rw [hJ2']
        simp [stepAt, hv, hnz]
      refine ⟨kb + ke + 1, stepsN_head ⟨EndLoop, hinsEL, hstepEL⟩ ?_⟩
      exact stepsN_trans hkb hke

/-- Auxiliary: inversion of a successful non-bracket dispatch: the
cursor advances by one and the state change is exactly the
corresponding big-step rule. -/
theorem stepAt_act_inv (a : Instructions) (jmp i : Nat) (s : St)
    (p : Nat × St) (hnbr : a ≠ BeginLoop ∧ a ≠ EndLoop)
    (h : stepAt a jmp i s = some p) :
    p.1 = i + 1 ∧
    ∀ (r : List Node) (s₂ : St), EvalL r p.2 s₂ → EvalL (.act a :: r) s s₂ := by
  obtain ⟨p1, p2⟩ := p
  cases a
  case IncrementPointer x =>
    by_cases hz : s.mem.length = 0
    · simp [stepAt, hz] at h
    · simp only [stepAt, if_neg hz, Option.some.injEq, Prod.mk.injEq] at h
      obtain ⟨h1, h2⟩ := h
      subst h1 h2
      exact ⟨rfl, fun r s₂ hc => .incPtr x r s s₂ hz hc⟩
  case DecrementPointer x =>
    by_cases hgt : x > s.idx
    · by_cases hlt : s.mem.length < x - s.idx
      · simp [stepAt, hgt, hlt] at h
      · simp only [stepAt, if_pos hgt, if_neg hlt, Option.some.injEq,
          Prod.mk.injEq] at h
        obtain ⟨h1, h2⟩ := h
        subst h1 h2
        exact ⟨rfl, fun r s₂ hc => .decPtrWrap x r s s₂ hgt hlt hc⟩
    · simp only [stepAt, if_neg hgt, Option.some.injEq, Prod.mk.injEq] at h
      obtain ⟨h1, h2⟩ := h
      subst h1 h2
      exact ⟨rfl, fun r s₂ hc => .decPtrNear x r s s₂ hgt hc⟩
  case IncrementValue x =>
    cases hv : s.mem[s.idx]? with
    | none => simp [stepAt, hv] at h
    | some v =>
      simp only [stepAt, hv, Option.some.injEq, Prod.mk.injEq] at h
      obtain ⟨h1, h2⟩ := h
      subst h1 h2
      exact ⟨rfl, fun r s₂ hc => .incVal x r s v s₂ hv hc⟩
  case DecrementValue x =>
    cases hv : s.mem[s.idx]? with
    | none => simp [stepAt, hv] at h
    | some v =>
      simp only [stepAt, hv, Option.some.injEq, Prod.mk.injEq] at h
      obtain ⟨h1, h2⟩ := h
      subst h1 h2
      exact ⟨rfl, fun r s₂ hc => .decVal x r s v s₂ hv hc⟩
  case BeginLoop => exact absurd rfl hnbr.1
  case EndLoop => exact absurd rfl hnbr.2
  case ReadChar =>
    cases hinp : s.inp with
    | nil => simp [stepAt, hinp] at h
    | cons b rest =>
      cases b with
      | some ch =>
        by_cases hlt : s.idx < s.mem.length
        · simp only [stepAt, hinp, if_pos hlt, Option.some.injEq,
            Prod.mk.injEq] at h
          obtain ⟨h1, h2⟩ := h
          subst h1 h2
          exact ⟨rfl, fun r s₂ hc => .readOk r s ch rest s₂ hinp hlt hc⟩
        · simp [stepAt, hinp, hlt] at h
      | none =>
        simp only [stepAt, hinp, Option.some.injEq, Prod.mk.injEq] at h
        obtain ⟨h1, h2⟩ := h
        subst h1 h2
        exact ⟨rfl, fun r s₂ hc => .readErr r s rest s₂ hinp hc⟩
  case PrintChar =>
    cases hv : s.mem[s.idx]? with
    | none => simp [stepAt, hv] at h
    | some v =>
      simp only [stepAt, hv, Option.some.injEq, Prod.mk.injEq] at h
      obtain ⟨h1, h2⟩ := h
      subst h1 h2
      exact ⟨rfl, fun r s₂ hc => .print r s v s₂ hv hc⟩
  case SetZero =>
    by_cases hlt : s.idx < s.mem.length
    · simp only [stepAt, if_pos hlt, Option.some.injEq, Prod.mk.injEq] at h
      obtain ⟨h1, h2⟩ := h
      subst h1 h2
      exact ⟨rfl, fun r s₂ hc => .setZero r s s₂ hlt hc⟩
    · simp [stepAt, hlt] at h

/-- Auxiliary: inversion of a successful `BeginLoop` dispatch. -/
theorem stepAt_bl_inv (jmp i : Nat) (s : St) (p : Nat × St)
    (h : stepAt BeginLoop jmp i s = some p) :
    ∃ v, s.mem[s.idx]? = some v ∧ p.2 = s ∧
      ((v = 0 ∧ p.1 = jmp + 1) ∨ (v ≠ 0 ∧ p.1 = i + 1)) := by
  obtain ⟨p1, p2⟩ := p
  cases hv : s.mem[s.idx]? with
  | none => simp [stepAt, hv] at h
  | some v =>
    simp only [stepAt, hv, Option.some.injEq] at h
    by_cases hv0 : v = 0
    · rw [if_pos hv0, Prod.mk.injEq] at h
      obtain ⟨h1, h2⟩ := h
      subst h1 h2
      exact ⟨v, rfl, rfl, Or.inl ⟨hv0, rfl⟩⟩
    · rw [if_neg hv0, Prod.mk.injEq] at h
      obtain ⟨h1, h2⟩ := h
      subst h1 h2
      exact ⟨v, rfl, rfl, Or.inr ⟨hv0, rfl⟩⟩

/-- Auxiliary: inversion of a successful `EndLoop` dispatch. -/
theorem stepAt_el_inv (jmp i : Nat) (s : St) (p : Nat × St)
    (h : stepAt EndLoop jmp i s = some p) :
    ∃ v, s.mem[s.idx]? = some v ∧ p.2 = s ∧
      ((v ≠ 0 ∧ p.1 = jmp + 1) ∨ (v = 0 ∧ p.1 = i + 1)) := by
  obtain ⟨p1, p2⟩ := p
  cases hv : s.mem[s.idx]? with
  | none => simp [stepAt, hv] at h
  | some v =>
    simp only [stepAt, hv, Option.some.injEq] at h
    by_cases hv0 : v ≠ 0
    · rw [if_pos hv0, Prod.mk.injEq] at h
      obtain ⟨h1, h2⟩ := h
      subst h1 h2
      exact ⟨v, rfl, rfl, Or.inl ⟨hv0, rfl⟩⟩
    · rw [if_neg hv0, Prod.mk.injEq] at h
      obtain ⟨h1, h2⟩ := h
      subst h1 h2
      exact ⟨v, rfl, rfl, Or.inr ⟨by omega, rfl⟩⟩

/-- Auxiliary: length of a flattened loop node. -/
theorem flatN_loop_len (b : List Node) :
    (flattenN (Node.loop b)).length = (flattenL b).length + 2 := by
  rw [show (flattenN (Node.loop b)) = BeginLoop :: (flattenL b ++ [EndLoop])
    from by simp [flattenN]]
  rw [List.length_cons, List.length_append, List.length_cons, List.length_nil]

/-- Auxiliary (flat-to-tree decomposition, loop-exit continuation): the
cell at the pointer is zero and the chain continues right after the
loop's `EndLoop`; the decomposition of the remaining region `r` extends
to one of `loop b :: r` via `loopExit`, accounting for the one jump
step already taken. -/
theorem decomp_exit (k' : Nat) (ih1 : Decomp1 k')
    (b r : List Node) (inst : List Instructions) (J : List Nat)
    (pre post : List Instructions) (s sf : St) (m : Nat)
    (hnb : NoBrL (.loop b :: r))
    (hreg : inst = pre ++ flattenL (.loop b :: r) ++ post)
    (hspan : SpanOkL J pre.length (.loop b :: r))
    (hv : s.mem[s.idx]? = some 0)
    (hrest : StepsN inst J k'
      (pre.length + 1 + (flattenL b).length + 1, s) (m, sf))
    (hnone : inst[m]? = none) :
    ∃ k₁ k₂ s_mid, k' + 1 = k₁ + k₂ ∧ EvalL (.loop b :: r) s s_mid ∧
      StepsN inst J k₂
        (pre.length + (flattenL (.loop b :: r)).length, s_mid) (m, sf) := by
  have hreg' : inst = (pre ++ flattenN (.loop b)) ++ flattenL r ++ post := by
    rw [hreg]
    rw [show flattenL (Node.loop b :: r) = flattenN (Node.loop b) ++ flattenL r
      from by simp [flattenL]]
    simp [List.append_assoc]
  have hspan' : SpanOkL J (pre ++ flattenN (.loop b)).length r := by
    have h2 := hspan.2
    rw [List.length_append]
    exact h2
  have hrest' : StepsN inst J k'
      ((pre ++ flattenN (.loop b)).length, s) (m, sf) := by
    rw [show ((pre ++ flattenN (Node.loop b)).length) =
        pre.length + 1 + (flattenL b).length + 1
      from by rw [List.length_append, flatN_loop_len]; omega]
    exact hrest
  obtain ⟨k₁', k₂, s_mid, hk, hEvr, htail⟩ :=
    ih1 r inst J (pre ++ flattenN (.loop b)) post s sf m hnb.2 hreg' hspan'
      hrest' hnone
  refine ⟨k₁' + 1, k₂, s_mid, by omega,
    EvalL.loopExit b r s s_mid hv hEvr, ?_⟩
  rw [show pre.length + (flattenL (Node.loop b :: r)).length =
      (pre ++ flattenN (Node.loop b)).length + (flattenL r).length
    from by rw [flat_len_loop, List.length_append, flatN_loop_len]; omega]
  exact htail

/-- Auxiliary (flat-to-tree decomposition, loop-iteration continuation):
the cell at the pointer is nonzero and the chain continues at the start
of the loop's body; decomposing the body run and then the re-entry at
the `EndLoop` position yields one `loopIter` of `loop b :: r`. -/
theorem decomp_iter (k' : Nat)
    (ih : ∀ j, j ≤ k' → Decomp1 j ∧ Decomp2 j)
    (b r : List Node) (inst : List Instructions) (J : List Nat)
    (pre post : List Instructions) (s sf : St) (m : Nat) (v : Nat)
    (hnb : NoBrL (.loop b :: r))
    (hreg : inst = pre ++ flattenL (.loop b :: r) ++ post)
    (hspan : SpanOkL J pre.length (.loop b :: r))
    (hv : s.mem[s.idx]? = some v) (hvne : v ≠ 0)
    (hrest : StepsN inst J k' (pre.length + 1, s) (m, sf))
    (hnone : inst[m]? = none) :
    ∃ k₁ k₂ s_mid, k' + 1 = k₁ + k₂ ∧ EvalL (.loop b :: r) s s_mid ∧
      StepsN inst J k₂
        (pre.length + (flattenL (.loop b :: r)).length, s_mid) (m, sf) := by
  have hnbb : NoBrL b := hnb.1
  have hreg'' : inst =
      (pre ++ [BeginLoop]) ++ flattenL b ++ (EndLoop :: (flattenL r ++ post)) := by
    rw [hreg]
    rw [show flattenL (Node.loop b :: r) =
        (BeginLoop :: (flattenL b ++ [EndLoop])) ++ flattenL r
      from by simp [flattenL, flattenN]]
    simp [List.append_assoc]
  have hspanb : SpanOkL J (pre ++ [BeginLoop]).length b := by
    have h3 : SpanOkL J (pre.length + 1) b := hspan.1.2.2
    rw [show ((pre ++ [BeginLoop]).length) = pre.length + 1 from by simp]
    exact h3
  have hrest1 : StepsN inst J k' ((pre ++ [BeginLoop]).length, s) (m, sf) := by
    rw [show ((pre ++ [BeginLoop]).length) = pre.length + 1 from by simp]
    exact hrest
  obtain ⟨kb₁, kb₂, s_b, hk', hEvb, hrestb⟩ :=
    (ih k' le_rfl).1 b inst J (pre ++ [BeginLoop])
      (EndLoop :: (flattenL r ++ post)) s sf m hnbb hreg'' hspanb hrest1 hnone
  have hrestb' : StepsN inst J kb₂
      (pre.length + 1 + (flattenL b).length, s_b) (m, sf) := by
    rw [show pre.length + 1 + (flattenL b).length =
        (pre ++ [BeginLoop]).length + (flattenL b).length from by simp]
    exact hrestb
  obtain ⟨kl₁, kl₂, s_mid, hk₂, hEvloop, htail⟩ :=
    (ih kb₂ (by omega)).2 b r inst J pre post s_b sf m hnb hreg hspan
      hrestb' hnone
  exact ⟨1 + kb₁ + kl₁, kl₂, s_mid, by omega,
    EvalL.loopIter b r s v s_b s_mid hv hvne hEvb hEvloop, htail⟩

/-- Auxiliary (flat-to-tree decomposition): every dispatch chain over a
bracket-free region with a span-correct jump table decomposes into a
big-step evaluation of the region's tree followed by a chain from the
region's end, both from the region's start and from an `EndLoop`
re-entry point.  Strong induction on the step count. -/
theorem stepsN_to_evalL (k : Nat) : Decomp1 k ∧ Decomp2 k := by
  induction k using Nat.strong_induction_on with
  | _ k ih =>
  constructor
  · intro ts inst J pre post s sf m hnb hreg hspan hsteps hnone
    cases ts with
    | nil =>
      refine ⟨0, k, s, by omega, .nil s, ?_⟩
      simpa [flattenL] using hsteps
    | cons n r =>
      cases n with
      | act a =>
        have hnbr : a ≠ BeginLoop ∧ a ≠ EndLoop := hnb.1
        have hins : inst[pre.length]? = some a := by
          have h0 := region_lookup inst pre (flattenL (.act a :: r)) post hreg
            0 (by rw [flat_len_act]; omega)
          rw [Nat.add_zero] at h0
          rw [h0, flat_get_act]
        cases k with
        | zero =>
          have hsteps' : ((pre.length, s) : Nat × St) = (m, sf) := hsteps
          injection hsteps' with h1 h2
          subst h1
          rw [hins] at hnone
          simp at hnone
        | succ k' =>
          have hsteps' : ∃ mp, StepR inst J (pre.length, s) mp ∧
              StepsN inst J k' mp (m, sf) := hsteps
          obtain ⟨⟨i₁, s₁⟩, ⟨ins, hins', hstep⟩, hrest⟩ := hsteps'
          have hins2 : inst[pre.length]? = some ins := hins'
          have hstep2 : stepAt ins (J[pre.length]?.getD 0) pre.length s =
              some (i₁, s₁) := hstep
          rw [hins] at hins2
          injection hins2 with hia
          subst hia
          obtain ⟨hcur, hext⟩ := stepAt_act_inv a (J[pre.length]?.getD 0)
            pre.length s (i₁, s₁) hnbr hstep2
          have hcur2 : i₁ = pre.length + 1 := hcur
          subst hcur2
          have hreg' : inst = (pre ++ [a]) ++ flattenL r ++ post := by
            rw [hreg]; simp [flattenL, flattenN]
          have hspan' : SpanOkL J (pre ++ [a]).length r := by
            have h2 := hspan.2
            rw [show ((pre ++ [a]).length) =
                pre.length + (flattenN (Node.act a)).length
              from by simp [flattenN]]
            exact h2
          have hrest2 : StepsN inst J k' ((pre ++ [a]).length, s₁) (m, sf) := by
            rw [show ((pre ++ [a]).length) = pre.length + 1 from by simp]
            exact hrest
          obtain ⟨k₁', k₂, s_mid, hk, hEv, htail⟩ :=
            (ih k' (by omega)).1 r inst J (pre ++ [a]) post s₁ sf m hnb.2
              hreg' hspan' hrest2 hnone
          refine ⟨k₁' + 1, k₂, s_mid, by omega, hext r s_mid hEv, ?_⟩
          rw [show pre.length + (flattenL (Node.act a :: r)).length =
              (pre ++ [a]).length + (flattenL r).length
            from by rw [flat_len_act, List.length_append, List.length_cons,
              List.length_nil]; omega]
          exact htail
      | loop b =>
        have hins : inst[pre.length]? = some BeginLoop := by
          have h0 := region_lookup inst pre (flattenL (.loop b :: r)) post hreg
            0 (by rw [flat_len_loop]; omega)
          rw [Nat.add_zero] at h0
          rw [h0, flat_get_bl]
        have hJ1 : J.getD pre.length 0 =
            pre.length + 1 + (flattenL b).length := hspan.1.1
        cases k with
        | zero =>
          have hsteps' : ((pre.length, s) : Nat × St) = (m, sf) := hsteps
          injection hsteps' with h1 h2
          subst h1
          rw [hins] at hnone
          simp at hnone
        | succ k' =>
          have hsteps' : ∃ mp, StepR inst J (pre.length, s) mp ∧
              StepsN inst J k' mp (m, sf) := hsteps
          obtain ⟨⟨i₁, s₁⟩, ⟨ins, hins', hstep⟩, hrest⟩ := hsteps'
          have hins2 : inst[pre.length]? = some ins := hins'
          have hstep2 : stepAt ins (J[pre.length]?.getD 0) pre.length s =
              some (i₁, s₁) := hstep
          rw [hins] at hins2
          injection hins2 with hia
          subst hia
          obtain ⟨v, hv, hps, hcases⟩ := stepAt_bl_inv (J[pre.length]?.getD 0)
            pre.length s (i₁, s₁) hstep2
          have hps2 : s = s₁ := hps.symm
          subst hps2
          have hjmp : J[pre.length]?.getD 0 =
              pre.length + 1 + (flattenL b).length := by
            rw [← List.getD_eq_getElem?_getD]; exact hJ1
          rcases hcases with ⟨hv0, hi⟩ | ⟨hvne, hi⟩
          · subst hv0
            have hi2 : i₁ = pre.length + 1 + (flattenL b).length + 1 := by
              have h' : i₁ = J[pre.length]?.getD 0 + 1 := hi
              rw [hjmp] at h'
              exact h'
            subst hi2
            exact decomp_exit k' (ih k' (by omega)).1 b r inst J pre post s sf
              m hnb hreg hspan hv hrest hnone
          · have hi2 : i₁ = pre.length + 1 := hi
            subst hi2
            exact decomp_iter k' (fun j hj => ih j (by omega)) b r inst J pre
              post s sf m v hnb hreg hspan hv hvne hrest hnone
  · intro b r inst J pre post s sf m hnb hreg hspan hsteps hnone
    have hinsE : inst[pre.length + 1 + (flattenL b).length]? = some EndLoop := by
      have h0 := region_lookup inst pre (flattenL (.loop b :: r)) post hreg
        (1 + (flattenL b).length) (by rw [flat_len_loop]; omega)
      rw [show pre.length + 1 + (flattenL b).length =
          pre.length + (1 + (flattenL b).length) from by omega]
      rw [h0, flat_get_el]
    have hJ2 : J.getD (pre.length + 1 + (flattenL b).length) 0 =
        pre.length := hspan.1.2.1
    cases k with
    | zero =>
      have hsteps' : ((pre.length + 1 + (flattenL b).length, s) : Nat × St) =
          (m, sf) := hsteps
      injection hsteps' with h1 h2
      subst h1
      rw [hinsE] at hnone
      simp at hnone
    | succ k' =>
      have hsteps' : ∃ mp,
          StepR inst J (pre.length + 1 + (flattenL b).length, s) mp ∧
          StepsN inst J k' mp (m, sf) := hsteps
      obtain ⟨⟨i₁, s₁⟩, ⟨ins, hins', hstep⟩, hrest⟩ := hsteps'
      have hins2 : inst[pre.length + 1 + (flattenL b).length]? = some ins :=
        hins'
      have hstep2 : stepAt ins
          (J[pre.length + 1 + (flattenL b).length]?.getD 0)
          (pre.length + 1 + (flattenL b).length) s = some (i₁, s₁) := hstep
      rw [hinsE] at hins2
      injection hins2 with hia
      subst hia
      obtain ⟨v, hv, hps, hcases⟩ := stepAt_el_inv
        (J[pre.length + 1 + (flattenL b).length]?.getD 0)
        (pre.length + 1 + (flattenL b).length) s (i₁, s₁) hstep2
      have hps2 : s = s₁ := hps.symm
      subst hps2
      have hjmp : J[pre.length + 1 + (flattenL b).length]?.getD 0 =
          pre.length := by
        rw [← List.getD_eq_getElem?_getD]; exact hJ2
      rcases hcases with ⟨hvne, hi⟩ | ⟨hv0, hi⟩
      · have hi2 : i₁ = pre.length + 1 := by
          have h' : i₁ =
              J[pre.length + 1 + (flattenL b).length]?.getD 0 + 1 := hi
          rw [hjmp] at h'
          omega
        subst hi2
        exact decomp_iter k' (fun j hj => ih j (by omega)) b r inst J pre post
          s sf m v hnb hreg hspan hv hvne hrest hnone
      · subst hv0
        have hi2 : i₁ = pre.length + 1 + (flattenL b).length + 1 := hi
        subst hi2
        exact decomp_exit k' (ih k' (by omega)).1 b r inst J pre post s sf m
          hnb hreg hspan hv hrest hnone

/-- Auxiliary: a chain starting where the program has no instruction
takes no steps. -/
theorem stepsN_stuck {inst : List Instructions} {J : List Nat} {k : Nat}
    {p q : Nat × St} (h : StepsN inst J k p q)
    (hnone : inst[p.1]? = none) : p = q := by
  cases k with
  | zero => exact h
  | succ k' =>
    obtain ⟨mp, ⟨ins, hins, _⟩, _⟩ := h
    rw [hnone] at hins
    simp at hins

/-- Auxiliary: on the flattening of a bracket-free tree the jump-table
construction succeeds and produces exactly the tree's bracket-pair
table. -/
theorem buildJump_tree (ts : List Node) (hnb : NoBrL ts) :
    buildJump (flattenL ts) =
    some (treeWriteL 0 ts (List.replicate (flattenL ts).length 0)) := by
  rw [buildJump]
  have h := buildJumpAux_flatten ts hnb [] 0 []
    (List.replicate (flattenL ts).length 0)
  rw [List.append_nil] at h
  rw [h]
  rw [buildJumpAux]

/-- Auxiliary: a successful jump-table construction reduces `run` to the
dispatch loop. -/
theorem run_eq_of_buildJump {inst : List Instructions} {J : List Nat}
    (h : buildJump inst = some J) (mem : List Nat) (idx : Nat)
    (inp : List (Option Nat)) (fuel : Nat) :
    run inst mem idx inp fuel = runLoop inst J fuel 0 0 ⟨mem, idx, inp, []⟩ := by
  unfold run
  rw [h]

/-- Auxiliary: on a well-bracketed source the optimizer output is the
flattening of the optimized tree. -/
theorem parse_true_eq (P : String) (ts : List Node) (hnb : NoBrL ts)
    (hlex : lex P = flattenL ts) :
    parse P true = flattenL (optL ts) := by
  have h1 : parse P true = optimizeLoop [] none (lex P) := by simp [parse]
  rw [h1, hlex]
  have h2 := optimizeLoop_optL ts hnb [] [] (Or.inl rfl)
  rw [List.append_nil] at h2
  rw [List.nil_append] at h2
  rw [h2]
  rw [optimizeLoop.eq_1]

/-- C1 (amended): optimization transparency restricted to the domain on
which the unoptimized and optimized programs are both meaningful.  For a
source whose command sequence is well bracketed and whose optimized
program's merged backward-move counts do not exceed the tape length, any
normally completed unoptimized run is reproduced by the optimized
program: with enough fuel it completes normally with the identical final
state (tape, pointer, remaining input, and output), though generally a
different executed-operation count.  (The original claim, quantified
over all sources, is refuted separately: merging backward moves can
turn two fine single steps into one underflowing `DecrementPointer`.) -/
theorem C1_amended (P : String) (mem : List Nat) (idx : Nat)
    (inp : List (Option Nat)) (fuel acts : Nat) (sf : St)
    (hwb : WellBracketed (parse P false))
    (hdp : DPle (parse P true) mem.length)
    (hok : run (parse P false) mem idx inp fuel = .ok acts sf) :
    ∃ fuel' acts', run (parse P true) mem idx inp fuel' = .ok acts' sf := by
  have hpf : parse P false = lex P := by simp [parse]
  obtain ⟨ts, hnb, hfl⟩ := hwb
  rw [hpf] at hfl
  rw [hpf, ← hfl] at hok
  rw [run_eq_of_buildJump (buildJump_tree ts hnb) mem idx inp fuel] at hok
  obtain ⟨k, m, hsteps, hnone, hacts⟩ := runLoop_to_stepsN hok
  have hspan : SpanOkL (treeWriteL 0 ts
      (List.replicate (flattenL ts).length 0)) 0 ts :=
    spanOk_treeWriteL ts 0 _ (by simp)
  obtain ⟨k₁, k₂, s_mid, hk, hEv, htail⟩ :=
    (stepsN_to_evalL k).1 ts (flattenL ts)
      (treeWriteL 0 ts (List.replicate (flattenL ts).length 0)) [] []
      ⟨mem, idx, inp, []⟩ sf m hnb (by simp) hspan hsteps hnone
  have hend : (flattenL ts)[([] : List Instructions).length +
      (flattenL ts).length]? = none := by
    apply List.getElem?_eq_none
    simp
  have hpq := stepsN_stuck htail hend
  injection hpq with he1 he2
  rw [he2] at hEv
  have hpt : parse P true = flattenL (optL ts) :=
    parse_true_eq P ts hnb hfl.symm
  have hdp' : DPle (flattenL (optL ts)) mem.length := by
    rw [← hpt]; exact hdp
  have hEvOpt : EvalL (optL ts) ⟨mem, idx, inp, []⟩ sf :=
    evalL_optL ts _ _ hEv hnb hdp'
  have hnb' : NoBrL (optL ts) := noBr_optL ts hnb
  have hspan' : SpanOkL (treeWriteL 0 (optL ts)
      (List.replicate (flattenL (optL ts)).length 0)) 0 (optL ts) :=
    spanOk_treeWriteL (optL ts) 0 _ (by simp)
  obtain ⟨k', hk'⟩ := (evalL_to_stepsN hEvOpt (flattenL (optL ts))
    (treeWriteL 0 (optL ts) (List.replicate (flattenL (optL ts)).length 0))
    [] [] (by simp) hspan').1
  have hnone' : (flattenL (optL ts))[([] : List Instructions).length +
      (flattenL (optL ts)).length]? = none := by
    apply List.getElem?_eq_none
    simp
  have hrun' := stepsN_to_runLoop hk' hnone' 0
  refine ⟨k' + 1, 0 + k', ?_⟩
  rw [hpt]
  rw [run_eq_of_buildJump (buildJump_tree (optL ts) hnb') mem idx inp (k' + 1)]
  exact hrun'

/-- C1 (amended, witness): the source `"<<"` is well bracketed, on tape
`[0, 0]` the optimized backward count 2 is within the tape length, and
the unoptimized run completes; hence the optimized program reaches the
same final state. -/
theorem C1_amended_witness :
    ∃ fuel' acts',
      run (parse "<<" true) [0, 0] 0 [] fuel' =
        .ok acts' ⟨[0, 0], 0, [], []⟩ := by
  have hlex : lex "<<" = [DecrementPointer 1, DecrementPointer 1] := by decide
  have hf : parse "<<" false = [DecrementPointer 1, DecrementPointer 1] := by
    simp [parse, hlex]
  have ht : parse "<<" true = [DecrementPointer 2] := by
    simp [parse, hlex, optimizeLoop]
  apply C1_amended "<<" [0, 0] 0 [] 3 2 ⟨[0, 0], 0, [], []⟩
  · refine ⟨[.act (DecrementPointer 1), .act (DecrementPointer 1)], ?_, ?_⟩
    · simp [NoBrL, NoBrN]
    · rw [hf]; simp [flattenL, flattenN]
  · intro x hx
    rw [ht] at hx
    simp at hx
    subst hx
    decide
  · rw [hf]; decide

/-- C10 (witness): a `SetZero` step at pointer 0 of tape `[7, 8]` leaves
cell 1 unchanged, and a `BeginLoop` step leaves the tape unchanged. -/
theorem C10_witness :
    (∀ j, j ≠ (St.mk [7, 8] 0 [] []).idx →
      (St.mk ([7, 8].set 0 0) 0 [] []).mem[j]? = (St.mk [7, 8] 0 [] []).mem[j]?) ∧
    (∀ x, SetZero = IncrementPointer x ∨ SetZero = DecrementPointer x →
      (St.mk ([7, 8].set 0 0) 0 [] []).mem = (St.mk [7, 8] 0 [] []).mem) ∧
    ((SetZero = BeginLoop ∨ SetZero = EndLoop) →
      (St.mk ([7, 8].set 0 0) 0 [] []).mem = (St.mk [7, 8] 0 [] []).mem) :=
  C10_frame_effect SetZero 0 0 ⟨[7, 8], 0, [], []⟩ 1 ⟨[7, 8].set 0 0, 0, [], []⟩ (by decide)

end BF
